import Mathlib

/-!
Verification of the othello-players minimax engine.

Shallow embedding of:
  * `src/minimax/heuristics.py`  — the four sub-heuristics,
  * `src/minimax/node.py`        — `Node.heuristic`, `Node.minimax`, `Node.__iter__`,
  * `src/minimax/minimax.py`     — the iterative alpha-beta driver
    `MiniMaxPlayer.minimax` and `MiniMaxPlayer.play`.

Python rationals/floats are modelled by `ℚ`; the `math.inf` sentinels used for
`alpha`, `beta` and node evaluations are modelled by `WithBot (WithTop ℚ)`
(`⊥` = `-inf`, `⊤` = `+inf`).  Fallible Python code (unguarded division,
`raise RuntimeError`) is modelled with `Option`.
-/

namespace OthelloMM

/-- Cell/side states, after `othello.enums.Color` (an external dependency of
the repository).  Modelled from the spec: cell lookup yields
`{sideA, sideB, empty, offBoard}` (§6); `outer` is the off-board value the
corner scan tests against (`Color.OUTER` in the source). -/
inductive Color where
  | white
  | black
  | empty
  | outer
deriving DecidableEq

/-- Modelled from the spec: the side swap (`color.opposite()` of the external
`othello.enums.Color`); §3 "the color whose turn it is … alternates strictly".
It is only ever applied to the two playing sides. -/
def Color.opposite : Color → Color
  | Color.white => Color.black
  | Color.black => Color.white
  | Color.empty => Color.empty
  | Color.outer => Color.outer

@[simp] lemma Color.opposite_white : Color.white.opposite = Color.black := rfl

@[simp] lemma Color.opposite_black : Color.black.opposite = Color.white := rfl

lemma Color.opposite_opposite {c : Color} (h : c = Color.white ∨ c = Color.black) :
    c.opposite.opposite = c := by
  rcases h with h | h <;> subst h <;> rfl

/-- A move is a coordinate pair (`T.Tuple[int, int]` in the source). -/
abbrev Move := ℤ × ℤ

/-- Extended rationals: the value domain of `alpha` / `beta` / `evaluation`
(`Rational` plus `±math.inf` in the source). -/
abbrev Ext := WithBot (WithTop ℚ)

/-- Embedding of a finite rational into `Ext`. -/
def finE (q : ℚ) : Ext := ((q : WithTop ℚ) : Ext)

/-- A finite `Ext` value (neither `-inf` nor `+inf`). -/
def ExtFinite (x : Ext) : Prop := x ≠ ⊥ ∧ x ≠ ⊤

lemma finE_ne_bot (q : ℚ) : finE q ≠ ⊥ := WithBot.coe_ne_bot

lemma finE_ne_top (q : ℚ) : finE q ≠ ⊤ := by
  intro h
  have := WithBot.coe_injective h
  exact WithTop.coe_ne_top this

lemma extFinite_finE (q : ℚ) : ExtFinite (finE q) := ⟨finE_ne_bot q, finE_ne_top q⟩

lemma bot_lt_finE (q : ℚ) : (⊥ : Ext) < finE q := WithBot.bot_lt_coe _

lemma finE_lt_top (q : ℚ) : finE q < (⊤ : Ext) := by
  have : ((q : WithTop ℚ) : Ext) < ((⊤ : WithTop ℚ) : Ext) :=
    WithBot.coe_lt_coe.mpr (WithTop.coe_lt_top q)
  exact this

lemma lt_top_of_ne_top {x : Ext} (h : x ≠ ⊤) : x < ⊤ := lt_top_iff_ne_top.mpr h

lemma bot_lt_of_ne_bot {x : Ext} (h : x ≠ ⊥) : ⊥ < x := bot_lt_iff_ne_bot.mpr h

/-- Modelled from the spec: the external Board/Position contract of §6 — cell
lookup over integer coordinates (off-board cells read as `outer`), an ordered
legal-move list per side (`validMoves(side)`; legality itself is out of scope,
§1), and the turn counters `turnsPlayed` / `maxTurns`.  Piece counts
(`board.score()`) are derived below by counting cells, per "per-side piece
counts". -/
structure Board where
  cell : ℤ → ℤ → Color
  validMoves : Color → List Move
  turns : ℕ
  maxTurns : ℕ

/-- The board's cell set `board.POSITIONS`: the 8×8 grid of coordinates
`(1..8) × (1..8)`, in row-major enumeration order. -/
def POSITIONS : List Move :=
  (List.range 8).flatMap fun i => (List.range 8).map fun j => ((i : ℤ) + 1, (j : ℤ) + 1)

/-- `board.CORNERS` (`minimax.py` line 14 fixes these four cells). -/
def CORNERS : List Move := [(1, 1), (1, 8), (8, 1), (8, 8)]

/-- Modelled from the spec: `stepDirections -> fixed 8-element set of unit
vectors` (§6), the `board.DIRECTIONS` of the source. -/
def DIRECTIONS : List Move :=
  [(-1, -1), (-1, 0), (-1, 1), (0, -1), (0, 1), (1, -1), (1, 0), (1, 1)]

/-- Number of cells of a given color (the source's `Counter`s / `score()`). -/
def countColor (b : Board) (c : Color) : ℕ :=
  (POSITIONS.filter fun p => decide (b.cell p.1 p.2 = c)).length

/-- `board.score() -> (white count, black count)`; `score_heuristic`
destructures it as `(score, opp_score)` exactly when `color == WHITE`. -/
def boardScore (b : Board) : ℕ × ℕ := (countColor b Color.white, countColor b Color.black)

/-- The symmetric-difference-over-sum ratio with the source's conditional:
`(a - b) / (a + b) * 100 if a + b else 0`. -/
def guardedRatio (a b : ℚ) : ℚ :=
  if a + b = 0 then 0 else (a - b) / (a + b) * 100

/-- `score_heuristic` (`heuristics.py` lines 21–27).  The division is NOT
guarded in the source, so a zero denominator is a `ZeroDivisionError`,
modelled as `none`. -/
def scoreHeuristic (b : Board) (color : Color) : Option ℚ :=
  let p := boardScore b
  let s : ℚ := if color = Color.white then (p.1 : ℚ) else (p.2 : ℚ)
  let o : ℚ := if color = Color.white then (p.2 : ℚ) else (p.1 : ℚ)
  if s + o = 0 then none else some ((s - o) / (s + o) * 100)

/-! ### `corners_heuristic` (`heuristics.py` lines 30–108)

The per-direction scan from an empty corner classifies by the first cell (of
up to 6 further steps) differing from the immediate neighbour's color. -/

/-- Outcome of the 6-step ray scan: which `Counter` the neighbour is recorded
in, or the `raise RuntimeError` path when `OUTER` is the first differing
cell. -/
inductive ScanClass where
  | irreversible
  | unlikely
  | potential
  | fault
deriving DecidableEq

/-- The inner `for i in range(6)` loop of the corner scan: starting from the
immediate neighbour's cell `pos`, step along `d` up to `fuel` times; classify
by the first cell differing from the neighbour color `nb`
(`heuristics.py` lines 56–67). -/
def classifyRay (b : Board) (nb : Color) : Move → Move → ℕ → ScanClass
  | _, _, 0 => ScanClass.irreversible
  | pos, d, fuel + 1 =>
    let pos' : Move := (pos.1 + d.1, pos.2 + d.2)
    let dn := b.cell pos'.1 pos'.2
    if dn ≠ nb then
      if dn = Color.empty then ScanClass.unlikely
      else if dn = Color.outer then ScanClass.fault
      else ScanClass.potential
    else classifyRay b nb pos' d fuel

/-- A pair of per-side tallies, one `Counter` of the source (only the two
playing sides are ever counted). -/
structure CCount where
  whites : ℕ
  blacks : ℕ
deriving DecidableEq

def CCount.get (x : CCount) : Color → ℕ
  | Color.white => x.whites
  | Color.black => x.blacks
  | _ => 0

def CCount.add (x : CCount) : Color → CCount
  | Color.white => { x with whites := x.whites + 1 }
  | Color.black => { x with blacks := x.blacks + 1 }
  | _ => x

/-- The three scan tallies `unlikely_corners`, `potential_corners`,
`irreversible_corners`. -/
structure Counts3 where
  unl : CCount
  pot : CCount
  irr : CCount
deriving DecidableEq

def Counts3.record (cnt : Counts3) (cls : ScanClass) (nb : Color) : Counts3 :=
  match cls with
  | ScanClass.unlikely => { cnt with unl := cnt.unl.add nb }
  | ScanClass.potential => { cnt with pot := cnt.pot.add nb }
  | ScanClass.irreversible => { cnt with irr := cnt.irr.add nb }
  | ScanClass.fault => cnt

/-- The `for direction in board.DIRECTIONS` loop body for one empty corner
(`heuristics.py` lines 49–69): skip when the immediate neighbour is `EMPTY`
or `OUTER`; otherwise scan and record — `none` models the raised
`RuntimeError`. -/
def scanDirs (b : Board) (corner : Move) : List Move → Counts3 → Option Counts3
  | [], cnt => some cnt
  | d :: ds, cnt =>
    let np : Move := (corner.1 + d.1, corner.2 + d.2)
    let nb := b.cell np.1 np.2
    if nb = Color.empty ∨ nb = Color.outer then scanDirs b corner ds cnt
    else
      match classifyRay b nb np d 6 with
      | ScanClass.fault => none
      | cls => scanDirs b corner ds (cnt.record cls nb)

/-- The `for corner in board.CORNERS` loop (`heuristics.py` lines 45–69):
occupied corners are skipped. -/
def scanCornersAux (b : Board) : List Move → Counts3 → Option Counts3
  | [], cnt => some cnt
  | corner :: cs, cnt =>
    if b.cell corner.1 corner.2 ≠ Color.empty then scanCornersAux b cs cnt
    else
      match scanDirs b corner DIRECTIONS cnt with
      | none => none
      | some cnt' => scanCornersAux b cs cnt'

def scanCorners (b : Board) : Option Counts3 :=
  scanCornersAux b CORNERS ⟨⟨0, 0⟩, ⟨0, 0⟩, ⟨0, 0⟩⟩

/-- `occupied_corners[col]`: corners currently holding color `col`. -/
def occCorners (b : Board) (col : Color) : ℕ :=
  (CORNERS.filter fun p => decide (b.cell p.1 p.2 = col)).length

def OCCUPIED_CORNERS_WEIGHT : ℚ := 50
def UNLIKELY_CORNERS_WEIGHT : ℚ := 40
def POTENTIAL_CORNERS_WEIGHT : ℚ := 30
def IRREVERSIBLE_CORNERS_WEIGHT : ℚ := 15

/-- The weighted combination at `heuristics.py` lines 95–108, applied to the
scan tallies. -/
def cornersCombine (b : Board) (cnt : Counts3) (color : Color) : ℚ :=
  let opp := color.opposite
  (OCCUPIED_CORNERS_WEIGHT * guardedRatio (occCorners b color) (occCorners b opp)
      + UNLIKELY_CORNERS_WEIGHT * guardedRatio (cnt.unl.get color) (cnt.unl.get opp)
      + POTENTIAL_CORNERS_WEIGHT * guardedRatio (cnt.pot.get color) (cnt.pot.get opp)
      + IRREVERSIBLE_CORNERS_WEIGHT * guardedRatio (cnt.irr.get color) (cnt.irr.get opp))
    / (4 * (OCCUPIED_CORNERS_WEIGHT + UNLIKELY_CORNERS_WEIGHT
        + POTENTIAL_CORNERS_WEIGHT + IRREVERSIBLE_CORNERS_WEIGHT))

/-- `corners_heuristic` (`heuristics.py` lines 30–108); `none` is the
`RuntimeError` of the ray scan.  Every division here is guarded by the
source's `if … else 0` conditionals (`guardedRatio`). -/
def cornersHeuristic (b : Board) (color : Color) : Option ℚ :=
  match scanCorners b with
  | none => none
  | some cnt => some (cornersCombine b cnt color)

/-! ### `mobility_heuristic` (`heuristics.py` lines 111–134) -/

def FRONT_MOBILITY_WEIGHT : ℚ := 50
def ACTUAL_MOBILITY_WEIGHT : ℚ := 50

/-- The `front_moves` tally for one color: pairs `(direction, pos)` with
`pos` occupied by `col` and the adjacent cell along `direction` empty
(`heuristics.py` lines 117–123). -/
def frontCount (b : Board) (col : Color) : ℕ :=
  let pieces := POSITIONS.filter fun p => decide (b.cell p.1 p.2 ≠ Color.empty)
  ((DIRECTIONS.flatMap fun d =>
      pieces.filter fun p => decide (b.cell (p.1 + d.1) (p.2 + d.2) = Color.empty)).filter
    fun p => decide (b.cell p.1 p.2 = col)).length

/-- `mobility_heuristic`: actual-moves ratio blended with the frontier ratio;
both ratios carry the source's zero-denominator guard. -/
def mobilityHeuristic (b : Board) (color : Color) : ℚ :=
  let opp := color.opposite
  let moves : ℚ := ((b.validMoves color).length : ℚ)
  let oppMoves : ℚ := ((b.validMoves opp).length : ℚ)
  let mobilityH := guardedRatio moves oppMoves
  let frontH := guardedRatio (frontCount b color) (frontCount b opp)
  (ACTUAL_MOBILITY_WEIGHT * mobilityH + FRONT_MOBILITY_WEIGHT * frontH)
    / (2 * (ACTUAL_MOBILITY_WEIGHT + FRONT_MOBILITY_WEIGHT))

/-! ### `stability_heuristic` (`heuristics.py` lines 137–180) -/

/-- The four line directions fixed at `heuristics.py` line 140. -/
def STAB_DIRECTIONS : List Move := [(1, 0), (-1, 1), (0, 1), (1, 1)]

/-- `pos in board.POSITIONS`: membership in the 8×8 grid. -/
def inBoard (p : Move) : Bool :=
  decide (1 ≤ p.1) && decide (p.1 ≤ 8) && decide (1 ≤ p.2) && decide (p.2 ≤ 8)

/-- One `while neighbour_pos in board.POSITIONS` ray walk: step along `d`
until either a cell differing from `occ` is found (`some` that cell's color)
or the walk leaves the grid (`none`, the loop's `else: continue`).  A ray
from an on-grid start leaves the grid within 8 steps, so fuel 9 never
exhausts; exhaustion is mapped to `none` like the off-grid exit. -/
def walkRay (b : Board) (occ : Color) (d : Move) : Move → ℕ → Option Color
  | _, 0 => none
  | pos, fuel + 1 =>
    if inBoard pos then
      let c' := b.cell pos.1 pos.2
      if c' ≠ occ then some c' else walkRay b occ d (pos.1 + d.1, pos.2 + d.2) fuel
    else none

/-- The `for direction in directions` loop of the stability classification
(`heuristics.py` lines 149–172), threading the current `pos_stability`:
an edge-anchored line keeps the current weight, matching terminators degrade
it to 1, mismatched terminators give 0 and stop the scan. -/
def posStabilityLoop (b : Board) (p : Move) (occ : Color) : List Move → ℕ → ℕ
  | [], cur => cur
  | d :: ds, cur =>
    match walkRay b occ d (p.1 + d.1, p.2 + d.2) 9 with
    | none => posStabilityLoop b p occ ds cur
    | some fc =>
      match walkRay b occ (-d.1, -d.2) (p.1 - d.1, p.2 - d.2) 9 with
      | none => posStabilityLoop b p occ ds cur
      | some bc => if fc = bc then posStabilityLoop b p occ ds 1 else 0

def posStability (b : Board) (p : Move) (occ : Color) : ℕ :=
  posStabilityLoop b p occ STAB_DIRECTIONS 2

/-- `stability[col]`: total stability weight of the cells holding `col`. -/
def stabCount (b : Board) (col : Color) : ℕ :=
  ((POSITIONS.filter fun p => decide (b.cell p.1 p.2 = col)).map
    fun p => posStability b p col).sum

/-- `stability_heuristic` (`heuristics.py` lines 137–180). -/
def stabilityHeuristic (b : Board) (color : Color) : ℚ :=
  guardedRatio (stabCount b color) (stabCount b color.opposite)

/-! ### `Node.heuristic` (`node.py` lines 130–159) -/

def SCORE_WEIGHT : ℚ := 25
def CORNERS_WEIGHT : ℚ := 30
def MOBILITY_WEIGHT : ℚ := 5
def STABILITY_WEIGHT : ℚ := 15

/-- The phase-adjusted weights computed at `node.py` lines 140–152:
`(score_weight, corners_weight, stability_weight)` after the two `if`s on
`remaining_moves = MAX_TURNS - turns`. -/
def adjustedWeights (b : Board) : ℚ × ℚ × ℚ :=
  let remaining : ℤ := (b.maxTurns : ℤ) - (b.turns : ℤ)
  let w := (SCORE_WEIGHT, CORNERS_WEIGHT, STABILITY_WEIGHT)
  let w := if remaining ≤ 20 then (w.1 + 10, w.2.1 + 20, w.2.2 + 10) else w
  if 20 < remaining ∧ remaining ≤ 40 then (w.1, w.2.1 + 10, w.2.2 + 10) else w

/-- `Node.heuristic` (`node.py` lines 130–159) exactly as written: the local
adjusted weights (`score_weight`, `corners_weight`, `stability_weight`,
`adjustedWeights` above) are computed and then NOT used — the final blend
reads the module constants `SCORE_WEIGHT`, `CORNERS_WEIGHT`,
`MOBILITY_WEIGHT`, `STABILITY_WEIGHT` in both numerator and denominator.
`none` propagates a sub-heuristic fault. -/
def nodeHeuristic (b : Board) (color : Color) : Option ℚ := do
  let s ← scoreHeuristic b color
  let co ← cornersHeuristic b color
  let m := mobilityHeuristic b color
  let st := stabilityHeuristic b color
  some ((SCORE_WEIGHT * s + CORNERS_WEIGHT * co + MOBILITY_WEIGHT * m + STABILITY_WEIGHT * st)
    / (SCORE_WEIGHT + CORNERS_WEIGHT + MOBILITY_WEIGHT + STABILITY_WEIGHT))

/-- Modelled from the spec: the final blend as §4.1/C1 state it — the
phase-ADJUSTED weights applied in both numerator and normalizing denominator
(`mobility` keeps its base weight 5). -/
def nodeHeuristicSpec (b : Board) (color : Color) : Option ℚ := do
  let s ← scoreHeuristic b color
  let co ← cornersHeuristic b color
  let m := mobilityHeuristic b color
  let st := stabilityHeuristic b color
  let w := adjustedWeights b
  some ((w.1 * s + w.2.1 * co + MOBILITY_WEIGHT * m + w.2.2 * st)
    / (w.1 + w.2.1 + MOBILITY_WEIGHT + w.2.2))

/-! ### The search (`minimax.py` lines 261–313)

`MiniMaxPlayer.minimax` is an iterative depth-first traversal that uses
parent back-references as its call stack.  Its denotation per node is embedded
below as structural recursion: a node repeatedly requests the next child
(created with the node's CURRENT `alpha`/`beta`), the child's whole subtree
closes before the parent resumes, and the closed child's
`(evaluation, move)` pair drives the parent's backtrack update
(lines 282–304).  A freshly materialized child whose `depth >= depth_limit`
is closed immediately as a leaf (lines 270–271) — note the root itself is
never depth-checked.  A closed node that never received a child report still
has its `±inf` initial evaluation and is scored by the heuristic
(lines 273–276, `closeEval` below); the heuristic is always taken for the
searching color.  The search state is threaded explicitly (`FoldSt`). -/

/-- Modelled from the spec: the external board services the search consumes
(§6) — ordered legal-move enumeration and clone-and-apply move application
(`play g s m c` stands for `s.get_clone().play(m, c)`) — together with the
node evaluator abstracted as a pure function of (position, side), which is
how §4.3 step 3 and §9 ("the driver is polymorphic over any callable from
(position, side) to rational") treat it. -/
structure Game (σ : Type) where
  validMoves : σ → Color → List Move
  play : σ → Move → Color → σ
  eval : σ → Color → ℚ

/-- The mutable per-node search state of the traversal: the node's fields
`alpha`, `beta`, `evaluation`, `next_move`, whether its children iterator has
been drained by a cutoff (`pruned`), and — as proof-only instrumentation —
the log of `(alpha, beta)` windows at each child request. -/
structure FoldSt where
  alpha : Ext
  beta : Ext
  evaluation : Ext
  next_move : Move
  pruned : Bool
  trace : List (Ext × Ext)
deriving DecidableEq

/-- A node's state before any child has reported
(`node.py` / `minimax.py` `__init__`): inherited window, `±inf` evaluation,
sentinel `next_move = (0, 0)`. -/
def initFoldSt (alpha beta : Ext) (maximizing : Bool) : FoldSt :=
  ⟨alpha, beta, if maximizing then ⊥ else ⊤, (0, 0), false, []⟩

/-- The parent's backtrack update on a closed child's report, exactly
`minimax.py` lines 282–304: maximizing adopts on strict `>`, prunes on
`evaluation >= beta`, else raises `alpha`; minimizing adopts on `<=`, then
`beta = min(beta, evaluation)`, prunes on `evaluation <= alpha`, else lowers
`beta` to the best on strict `<`. -/
def backtrackUpdate (maximizing : Bool) (st : FoldSt) (r : Ext) (m : Move) : FoldSt :=
  if maximizing then
    let st1 := if r > st.evaluation then { st with next_move := m, evaluation := r } else st
    if st1.evaluation ≥ st1.beta then { st1 with pruned := true }
    else if st1.evaluation > st1.alpha then { st1 with alpha := st1.evaluation }
    else st1
  else
    let st1 := if r ≤ st.evaluation then { st with next_move := m, evaluation := r } else st
    let st2 := { st1 with beta := min st1.beta r }
    if st2.evaluation ≤ st2.alpha then { st2 with pruned := true }
    else if st2.evaluation < st2.beta then { st2 with beta := st2.evaluation }
    else st2

/-- `Node.minimax` (`node.py` lines 108–128), the Node-method variant of the
backtrack update.  It differs from the driver's: minimizing adopts only on
strict `<`, and there is no `beta = min(beta, evaluation)` pre-tightening. -/
def nodeMinimaxUpdate (maximizing : Bool) (st : FoldSt) (r : Ext) (m : Move) : FoldSt :=
  if maximizing then
    let st1 := if r > st.evaluation then { st with next_move := m, evaluation := r } else st
    if st1.evaluation ≥ st1.beta then { st1 with pruned := true }
    else if st1.evaluation > st1.alpha then { st1 with alpha := st1.evaluation }
    else st1
  else
    let st1 := if r < st.evaluation then { st with next_move := m, evaluation := r } else st
    if st1.evaluation ≤ st1.alpha then { st1 with pruned := true }
    else if st1.evaluation < st1.beta then { st1 with beta := st1.evaluation }
    else st1

/-- The node's walk over its (lazily created) children, `childR m alpha beta`
being the closed evaluation of the child made from move `m` under the node's
current window, paired with that subtree's request log.  Once `pruned`, the
remaining children are only drained (`for _ in parent: pass`,
`minimax.py` lines 288–290 / 300–302), never searched: the state is left
untouched. -/
def abChildren (maximizing : Bool) (childR : Move → Ext → Ext → Ext × List (Ext × Ext)) :
    List Move → FoldSt → FoldSt
  | [], st => st
  | m :: ms, st =>
    if st.pruned then abChildren maximizing childR ms st
    else
      let rep := childR m st.alpha st.beta
      let st' := backtrackUpdate maximizing st rep.1 m
      abChildren maximizing childR ms
        { st' with trace := st.trace ++ (st.alpha, st.beta) :: rep.2 }

/-- A node's result once it closes: `(bestEvaluation, bestMove)` plus the
instrumentation log. -/
structure SearchResult where
  evaluation : Ext
  next_move : Move
  trace : List (Ext × Ext)

/-- `minimax.py` lines 273–276: a node closing with a `±inf` evaluation never
received a child report and is scored by the heuristic for the searching
color. -/
def closeEval (e : Ext) (h : ℚ) : Ext :=
  if e = ⊥ ∨ e = ⊤ then finE h else e

/-- One node's full processing given its child-report function. -/
def abBody {σ : Type} (g : Game σ) (sc : Color) (s : σ) (c : Color) (maximizing : Bool)
    (alpha beta : Ext) (childR : Move → Ext → Ext → Ext × List (Ext × Ext)) : SearchResult :=
  let st := abChildren maximizing childR (g.validMoves s c) (initFoldSt alpha beta maximizing)
  ⟨closeEval st.evaluation (g.eval s sc), st.next_move, st.trace⟩

/-- Child report when the child's depth reaches the limit
(`minimax.py` lines 270–271): the freshly materialized child closes at once,
so its report is the heuristic of its position for the searching color. -/
def leafReport {σ : Type} (g : Game σ) (sc : Color) (s : σ) (c : Color) :
    Move → Ext → Ext → Ext × List (Ext × Ext) :=
  fun m _ _ => (finE (g.eval (g.play s m c) sc), [])

/-- The traversal rooted at a node with `fuel = depth_limit - depth` plies
left: a materialized child is a leaf iff its `depth + 1 >= depth_limit`,
i.e. iff `fuel <= 1`.  The node itself always walks its children — the root
is never depth-checked, which is why `fuel = 0` (depth_limit 0) still expands
the root's children. -/
def abNode {σ : Type} (g : Game σ) (sc : Color) :
    ℕ → σ → Color → Bool → Ext → Ext → SearchResult
  | 0, s, c, mx, alpha, beta => abBody g sc s c mx alpha beta (leafReport g sc s c)
  | 1, s, c, mx, alpha, beta => abBody g sc s c mx alpha beta (leafReport g sc s c)
  | f + 2, s, c, mx, alpha, beta =>
    abBody g sc s c mx alpha beta fun m a b =>
      let r := abNode g sc (f + 1) (g.play s m c) c.opposite (!mx) a b
      (r.evaluation, r.trace)

/-- `MiniMaxPlayer.minimax(board, color, depth_limit)` (`minimax.py`
lines 262–307): root node `Node((0, 0), color, board)` — window
`(-inf, +inf)`, maximizing, depth 0 — searched to `depth_limit` plies. -/
def minimaxDriver {σ : Type} (g : Game σ) (sc : Color) (limit : ℕ) (s : σ) : SearchResult :=
  abNode g sc limit s sc true ⊥ ⊤

/-- `MiniMaxPlayer.play` (`minimax.py` lines 312–313): the root's `next_move`
after a search with the fixed depth limit 5. -/
def miniMaxPlayerPlay {σ : Type} (g : Game σ) (sc : Color) (s : σ) : Move :=
  (minimaxDriver g sc 5 s).next_move

/-! ### Full-width reference search (for the refinement claim C4)

Modelled from the spec: "full-width search … of the same tree to the same
depth using the same evaluator and tie-break rules" (§8).  Identical tree
shape, leaf rule and adoption comparisons, but no `alpha`/`beta` and no
pruning. -/

def fwUpdate (maximizing : Bool) (st : Ext × Move) (r : Ext) (m : Move) : Ext × Move :=
  if maximizing then (if r > st.1 then (r, m) else st)
  else (if r ≤ st.1 then (r, m) else st)

def fwChildren (maximizing : Bool) (childV : Move → Ext) :
    List Move → Ext × Move → Ext × Move
  | [], st => st
  | m :: ms, st => fwChildren maximizing childV ms (fwUpdate maximizing st (childV m) m)

def fwNode {σ : Type} (g : Game σ) (sc : Color) :
    ℕ → σ → Color → Bool → Ext × Move
  | 0, s, c, mx =>
    let st := fwChildren mx (fun m => finE (g.eval (g.play s m c) sc)) (g.validMoves s c)
      (if mx then ⊥ else ⊤, (0, 0))
    (closeEval st.1 (g.eval s sc), st.2)
  | 1, s, c, mx =>
    let st := fwChildren mx (fun m => finE (g.eval (g.play s m c) sc)) (g.validMoves s c)
      (if mx then ⊥ else ⊤, (0, 0))
    (closeEval st.1 (g.eval s sc), st.2)
  | f + 2, s, c, mx =>
    let st := fwChildren mx (fun m => (fwNode g sc (f + 1) (g.play s m c) c.opposite (!mx)).1)
      (g.validMoves s c) (if mx then ⊥ else ⊤, (0, 0))
    (closeEval st.1 (g.eval s sc), st.2)

def fwDriver {σ : Type} (g : Game σ) (sc : Color) (limit : ℕ) (s : σ) : Ext × Move :=
  fwNode g sc limit s sc true

/-- The running maximum a maximizing full-width fold computes. -/
def maxRun (f : Move → Ext) : List Move → Ext → Ext
  | [], e => e
  | m :: ms, e => maxRun f ms (max e (f m))

/-- The running minimum a minimizing full-width fold computes. -/
def minRun (f : Move → Ext) : List Move → Ext → Ext
  | [], e => e
  | m :: ms, e => minRun f ms (min e (f m))

/-- The fail-soft contract between a child's pruned-search report
(`childR m alpha beta`, first component) and its full-width value
(`childV m`): exact inside the window, a sound bound outside it. -/
def TriAt (childR : Move → Ext → Ext → Ext × List (Ext × Ext)) (childV : Move → Ext)
    (m : Move) : Prop :=
  ∀ α β : Ext, α < β →
    ((childR m α β).1 ≤ α → childV m ≤ (childR m α β).1) ∧
    (β ≤ (childR m α β).1 → (childR m α β).1 ≤ childV m) ∧
    (α < (childR m α β).1 → (childR m α β).1 < β → (childR m α β).1 = childV m)

/-! ### The lazy children sequence (`Node.__iter__`, `node.py` lines 75–97 /
`minimax.py` lines 87–109)

`__iter__` materializes the children generator at most once (`self._iter`),
caches it, and always returns the cached iterator; `__next__` pops from it.
The node's constructor fields and the generator's per-move child construction
are embedded directly; the iterator's mutable cursor is explicit state. -/

/-- One `Node`'s constructor fields (`__init__`): the move that created it,
side to move, position, window, depth, maximizing flag.  The `parent`
back-reference is the traversal bookkeeping, not part of the child data. -/
structure NodeRec (σ : Type) where
  move : Move
  color : Color
  board : σ
  beta : Ext
  depth : ℕ
  alpha : Ext
  maximizing : Bool

/-- The children generator's elements, in `board.valid_moves(color)` order:
one child per legal move, built from a clone-and-play of the position with
depth+1, swapped side, inherited window and flipped maximizing flag. -/
def mkChildren {σ : Type} (g : Game σ) (n : NodeRec σ) : List (NodeRec σ) :=
  (g.validMoves n.board n.color).map fun m =>
    ⟨m, n.color.opposite, g.play n.board m n.color, n.beta, n.depth + 1, n.alpha, !n.maximizing⟩

/-- A node together with its `_iter` slot: `none` before first request,
`some remaining` afterwards (the not-yet-consumed suffix). -/
structure NodeIter (σ : Type) where
  node : NodeRec σ
  iterSlot : Option (List (NodeRec σ))

/-- `__iter__`: create the children iterator on first request, return the
cached (possibly partially consumed) one afterwards. -/
def getIter {σ : Type} (g : Game σ) (it : NodeIter σ) : List (NodeRec σ) × NodeIter σ :=
  match it.iterSlot with
  | none => (mkChildren g it.node, ⟨it.node, some (mkChildren g it.node)⟩)
  | some cs => (cs, it)

/-- `__next__`: advance the (cached) iterator; `none` is `StopIteration`. -/
def nextChild {σ : Type} (g : Game σ) (it : NodeIter σ) :
    Option (NodeRec σ × NodeIter σ) :=
  match getIter g it with
  | ([], _) => none
  | (c :: rest, it') => some (c, ⟨it'.node, some rest⟩)

/-- Repeatedly calling `__next__` until `StopIteration`, collecting the
yielded children (`fuel` bounds the unrolling). -/
def drainChildren {σ : Type} (g : Game σ) : NodeIter σ → ℕ → List (NodeRec σ)
  | _, 0 => []
  | it, fuel + 1 =>
    match nextChild g it with
    | none => []
    | some (c, it') => c :: drainChildren g it' fuel

/-! ### Concrete instances used by witnesses and counterexamples -/

/-- A board whose only piece is a white one at (4,4); white has one legal
move, black none; 15 turns remain (late phase). -/
def B1 : Board :=
  { cell := fun i j =>
      if i = 4 ∧ j = 4 then Color.white
      else if 1 ≤ i ∧ i ≤ 8 ∧ 1 ≤ j ∧ j ≤ 8 then Color.empty
      else Color.outer
    validMoves := fun c => if c = Color.white then [(1, 2)] else []
    turns := 45
    maxTurns := 60 }

/-- The all-empty board: both sides' piece counts are zero. -/
def emptyBoard : Board :=
  { cell := fun i j =>
      if 1 ≤ i ∧ i ≤ 8 ∧ 1 ≤ j ∧ j ≤ 8 then Color.empty else Color.outer
    validMoves := fun _ => []
    turns := 0
    maxTurns := 60 }

/-- A malformed board: corner (1,1) is empty, its neighbour (2,1) is black,
but (3,1) already reads off-board — the corner-scan ray meets `OUTER` as the
first differing cell. -/
def faultBoard : Board :=
  { cell := fun i j =>
      if i = 2 ∧ j = 1 then Color.black
      else if i = 1 ∧ j = 1 then Color.empty
      else Color.outer
    validMoves := fun _ => []
    turns := 0
    maxTurns := 60 }

/-- A two-position game: position 0 has the single legal move (2,3) for
either side, position 1 has none; every position evaluates to 0. -/
def tinyGame : Game ℕ :=
  { validMoves := fun s _ => if s = 0 then [(2, 3)] else []
    play := fun _ _ _ => 1
    eval := fun _ _ => 0 }

/-! ## Helper lemmas -/

lemma ratioPair_neg (a b : ℚ) : (b - a) / (b + a) * 100 = -((a - b) / (a + b) * 100) := by
  rw [add_comm b a]
  ring

lemma guardedRatio_neg (a b : ℚ) : guardedRatio b a = -guardedRatio a b := by
  unfold guardedRatio
  rcases eq_or_ne (a + b) 0 with h | h
  · have h' : b + a = 0 := by rw [add_comm]; exact h
    rw [if_pos h, if_pos h', neg_zero]
  · have h' : b + a ≠ 0 := fun hh => h (by rwa [add_comm] at hh)
    rw [if_neg h, if_neg h', ratioPair_neg]

/-- Evaluations of the four sub-heuristics on the one-white-piece board. -/
lemma B1_score : scoreHeuristic B1 Color.white = some 100 := by
  have h1 : countColor B1 Color.white = 1 := by decide
  have h2 : countColor B1 Color.black = 0 := by decide
  simp [scoreHeuristic, boardScore, h1, h2]

lemma B1_corners : cornersHeuristic B1 Color.white = some 0 := by
  have h0 : scanCorners B1 = some ⟨⟨0, 0⟩, ⟨0, 0⟩, ⟨0, 0⟩⟩ := by decide
  have h1 : occCorners B1 Color.white = 0 := by decide
  have h2 : occCorners B1 Color.black = 0 := by decide
  rw [cornersHeuristic, h0]
  simp only [cornersCombine, Color.opposite_white, h1, h2, guardedRatio, CCount.get]
  norm_num

lemma B1_mobility : mobilityHeuristic B1 Color.white = 50 := by
  have h1 : frontCount B1 Color.white = 8 := by decide
  have h2 : frontCount B1 Color.black = 0 := by decide
  have h3 : B1.validMoves Color.white = [(1, 2)] := rfl
  have h4 : B1.validMoves Color.black = [] := rfl
  rw [mobilityHeuristic]
  simp only [Color.opposite_white, h1, h2, h3, h4, guardedRatio, List.length_cons,
    List.length_nil, ACTUAL_MOBILITY_WEIGHT, FRONT_MOBILITY_WEIGHT]
  norm_num

lemma B1_stability : stabilityHeuristic B1 Color.white = 100 := by
  have h1 : stabCount B1 Color.white = 1 := by decide
  have h2 : stabCount B1 Color.black = 0 := by decide
  rw [stabilityHeuristic]
  simp only [Color.opposite_white, h1, h2, guardedRatio]
  norm_num

/-! ## C1 — phase-adaptive weights in `Node.heuristic` -/

/-- C1.  The claim says the phase-ADJUSTED weights (score 25+10,
corners 30+20, stability 15+10 when at most 20 turns remain) are the ones
used in `Node.heuristic`'s final weighted average.  The code computes those
adjusted weights and then ignores them: on the late-phase board `B1`
(15 turns remaining) the source blend (`nodeHeuristic`) returns the
base-constant average `170/3`, while the blend the claim describes
(`nodeHeuristicSpec`) returns `1250/23`, and the two differ.  This
contradicts the code's own "Dynamic weights" comment: the claim captures the
intent, the code drops the adjusted weights. -/
theorem C1_weights_dropped :
    nodeHeuristic B1 Color.white = some (170 / 3) ∧
    nodeHeuristicSpec B1 Color.white = some (1250 / 23) ∧
    adjustedWeights B1 = (35, 50, 25) ∧
    (170 / 3 : ℚ) ≠ 1250 / 23 := by
  have hw : adjustedWeights B1 = (35, 50, 25) := by
    rw [adjustedWeights]
    norm_num [B1, SCORE_WEIGHT, CORNERS_WEIGHT, STABILITY_WEIGHT]
  refine ⟨?_, ?_, hw, by norm_num⟩
  · rw [nodeHeuristic]
    rw [B1_score, B1_corners]
    simp only [Option.bind_eq_bind, Option.some_bind, B1_mobility, B1_stability,
      SCORE_WEIGHT, CORNERS_WEIGHT, MOBILITY_WEIGHT, STABILITY_WEIGHT]
    norm_num
  · rw [nodeHeuristicSpec]
    rw [B1_score, B1_corners]
    simp only [Option.bind_eq_bind, Option.some_bind, B1_mobility, B1_stability, hw,
      MOBILITY_WEIGHT]
    norm_num

/-! ## C3 — tie-break rules of the backtrack updates -/

/-- C3 counterexample.  The claim asserts that, in backtracking, a minimizing
parent adopts on "≤", so a child reporting an evaluation exactly equal to the
parent's best makes the later-enumerated move the parent's choice.  The
`Node.minimax` backtrack method (`node.py` lines 119–128) adopts only on
strict "<": a minimizing parent whose best is 5 with move (1,1), receiving an
equal report 5 for the later move (2,2), keeps (1,1). -/
theorem C3_counterexample :
    (nodeMinimaxUpdate false ⟨⊥, ⊤, finE 5, (1, 1), false, []⟩ (finE 5) (2, 2)).next_move
        = (1, 1) ∧
    ((1, 1) : Move) ≠ (2, 2) := by decide

/-- C3 amended: the "≤"-adoption (later-enumerated move wins a minimizing
tie) holds for the iterative driver's backtrack step (`minimax.py`
lines 293–296), whose maximizing side adopts only on strict ">" (equal
evaluations keep the earlier move); the `Node.minimax` method of `node.py`
instead adopts on strict "<" for minimizing parents as well, so there a tie
keeps the earlier move for both parities. -/
theorem C3_amended (st : FoldSt) (r : Ext) (m : Move) (h : r = st.evaluation) :
    (backtrackUpdate false st r m).next_move = m ∧
    (backtrackUpdate true st r m).next_move = st.next_move ∧
    (nodeMinimaxUpdate false st r m).next_move = st.next_move ∧
    (nodeMinimaxUpdate true st r m).next_move = st.next_move := by
  subst h
  refine ⟨?_, ?_, ?_, ?_⟩
  · simp only [backtrackUpdate, Bool.false_eq_true, if_false, le_refl, if_true]
    split_ifs <;> rfl
  · simp only [backtrackUpdate, if_true, gt_iff_lt, lt_self_iff_false, if_false]
    split_ifs <;> rfl
  · simp only [nodeMinimaxUpdate, Bool.false_eq_true, if_false, lt_self_iff_false, if_true]
    split_ifs <;> rfl
  · simp only [nodeMinimaxUpdate, if_true, gt_iff_lt, lt_self_iff_false, if_false]
    split_ifs <;> rfl

theorem C3_amended_witness :
    finE 5 = (⟨⊥, ⊤, finE 5, (1, 1), false, []⟩ : FoldSt).evaluation ∧
    (backtrackUpdate false ⟨⊥, ⊤, finE 5, (1, 1), false, []⟩ (finE 5) (2, 2)).next_move
        = (2, 2) :=
  ⟨rfl, (C3_amended ⟨⊥, ⊤, finE 5, (1, 1), false, []⟩ (finE 5) (2, 2) rfl).1⟩

/-! ## C5 — zero denominators in the sub-heuristics -/

/-- C5 counterexample.  The claim says every sub-heuristic treats a zero
denominator as a 0 contribution, "in particular score_heuristic is defined
even when both sides' piece counts are zero".  `score_heuristic` has no such
guard: on the all-empty board its division faults (`ZeroDivisionError`,
modelled `none`). -/
theorem C5_counterexample : scoreHeuristic emptyBoard Color.white = none := by
  have h1 : countColor emptyBoard Color.white = 0 := by decide
  have h2 : countColor emptyBoard Color.black = 0 := by decide
  simp [scoreHeuristic, boardScore, h1, h2]

/-- C5 amended: the corners, mobility and stability sub-heuristics guard
every one of their ratios (a zero denominator contributes exactly 0, and the
corners combination is total whenever its ray scan does not fault), but
`score_heuristic` is unguarded: it faults exactly when the two piece counts
sum to zero. -/
theorem C5_amended (b : Board) (c : Color) :
    (scoreHeuristic b c = none ↔ countColor b Color.white + countColor b Color.black = 0) ∧
    (stabCount b c + stabCount b c.opposite = 0 → stabilityHeuristic b c = 0) ∧
    ((b.validMoves c).length + (b.validMoves c.opposite).length = 0 →
      frontCount b c + frontCount b c.opposite = 0 → mobilityHeuristic b c = 0) ∧
    (∀ cnt, scanCorners b = some cnt → cornersHeuristic b c = some (cornersCombine b cnt c)) := by
  refine ⟨?_, ?_, ?_, ?_⟩
  · rw [scoreHeuristic]
    by_cases hc : c = Color.white <;>
      simp only [hc, if_true, if_false, boardScore] <;>
      constructor <;> intro h
    · by_cases h0 : ((countColor b Color.white : ℚ) + (countColor b Color.black : ℚ)) = 0
      · exact_mod_cast h0
      · simp [h0] at h
    · have : ((countColor b Color.white : ℚ) + (countColor b Color.black : ℚ)) = 0 := by
        exact_mod_cast h
      simp [this]
    · by_cases h0 : ((countColor b Color.black : ℚ) + (countColor b Color.white : ℚ)) = 0
      · have : (countColor b Color.black : ℚ) + (countColor b Color.white : ℚ) =
            (countColor b Color.white : ℚ) + (countColor b Color.black : ℚ) := by ring
        rw [this] at h0
        exact_mod_cast h0
      · simp [h0] at h
    · have : ((countColor b Color.black : ℚ) + (countColor b Color.white : ℚ)) = 0 := by
        rw [add_comm]
        exact_mod_cast h
      simp [this]
  · intro h
    have hx : (stabCount b c : ℚ) + (stabCount b c.opposite : ℚ) = 0 := by exact_mod_cast h
    rw [stabilityHeuristic, guardedRatio, if_pos hx]
  · intro h1 h2
    have hm : ((b.validMoves c).length : ℚ) + ((b.validMoves c.opposite).length : ℚ) = 0 := by
      exact_mod_cast h1
    have hf : (frontCount b c : ℚ) + (frontCount b c.opposite : ℚ) = 0 := by exact_mod_cast h2
    rw [mobilityHeuristic]
    simp only [guardedRatio, if_pos hm, if_pos hf]
    norm_num
  · intro cnt h
    rw [cornersHeuristic, h]

theorem C5_amended_witness :
    stabilityHeuristic emptyBoard Color.white = 0 ∧
    mobilityHeuristic emptyBoard Color.white = 0 ∧
    cornersHeuristic emptyBoard Color.white
        = some (cornersCombine emptyBoard ⟨⟨0, 0⟩, ⟨0, 0⟩, ⟨0, 0⟩⟩ Color.white) :=
  ⟨(C5_amended emptyBoard Color.white).2.1 (by decide),
   (C5_amended emptyBoard Color.white).2.2.1 (by decide) (by decide),
   (C5_amended emptyBoard Color.white).2.2.2 _ (by decide)⟩

/-! ## C2 — depth-limit 0 at the root -/

/-- C2 counterexample.  The claim says a depth-limit-0 search evaluates the
root directly, materializes no children and returns the sentinel (0, 0).  In
the driver the depth test runs only after `next(current)` has already
materialized a child, so on `tinyGame` (one legal move (2, 3) at the root)
the depth-0 search returns the legal move (2, 3), not the sentinel. -/
theorem C2_counterexample :
    (minimaxDriver tinyGame Color.white 0 0).next_move = (2, 3) ∧
    ((2, 3) : Move) ≠ (0, 0) := by decide

/-! ## C7 — the lazy children sequence -/

lemma drainChildren_some {σ : Type} (g : Game σ) (n : NodeRec σ) :
    ∀ (l : List (NodeRec σ)) (extra : ℕ),
      drainChildren g ⟨n, some l⟩ (l.length + extra) = l := by
  intro l
  induction l with
  | nil =>
    intro extra
    cases extra <;> simp [drainChildren, nextChild, getIter]
  | cons c rest ih =>
    intro extra
    have : (c :: rest).length + extra = (rest.length + extra) + 1 := by
      simp [List.length_cons]
      omega
    rw [this]
    simp only [drainChildren, nextChild, getIter]
    rw [ih extra]

/-- C7.  The children sequence yields exactly one child per legal move of the
side to move, in the board's enumeration order (each child being the
clone-and-play successor with depth+1, swapped side, inherited window,
flipped maximizing flag); repeatedly calling `__next__` on a fresh node
yields exactly that list and never more (regardless of how much longer one
keeps asking); and a second `__iter__` request returns the already
materialized (possibly partially consumed) iterator unchanged, without
recomputation. -/
theorem C7_lazy_children {σ : Type} (g : Game σ) (n : NodeRec σ) :
    (mkChildren g n).length = (g.validMoves n.board n.color).length ∧
    mkChildren g n = (g.validMoves n.board n.color).map (fun m =>
      ⟨m, n.color.opposite, g.play n.board m n.color, n.beta, n.depth + 1, n.alpha,
        !n.maximizing⟩) ∧
    (∀ extra : ℕ,
      drainChildren g ⟨n, none⟩ ((g.validMoves n.board n.color).length + extra)
        = mkChildren g n) ∧
    (∀ cs : List (NodeRec σ), getIter g ⟨n, some cs⟩ = (cs, ⟨n, some cs⟩)) ∧
    getIter g (getIter g ⟨n, none⟩).2 = ((getIter g ⟨n, none⟩).1, (getIter g ⟨n, none⟩).2) := by
  refine ⟨by simp [mkChildren], rfl, ?_, fun cs => rfl, rfl⟩
  intro extra
  have hlen : (g.validMoves n.board n.color).length = (mkChildren g n).length := by
    simp [mkChildren]
  rw [hlen]
  rcases hmk : mkChildren g n with _ | ⟨c, rest⟩
  · cases extra <;> simp [drainChildren, nextChild, getIter, hmk]
  · have : (c :: rest).length + extra = (rest.length + extra) + 1 := by
      simp [List.length_cons]
      omega
    rw [this]
    simp only [drainChildren, nextChild, getIter, hmk]
    rw [drainChildren_some g n rest extra]

/-! ## C8 — the corner-scan internal-consistency fault -/

/-- The fault condition of the claim for one (corner, direction) pair: the
immediate neighbour is non-empty and on-board, and the 6-step scan meets an
off-board cell as the first cell differing from the neighbour's color. -/
def dirFault (b : Board) (corner d : Move) : Prop :=
  ¬(b.cell (corner.1 + d.1) (corner.2 + d.2) = Color.empty ∨
      b.cell (corner.1 + d.1) (corner.2 + d.2) = Color.outer) ∧
  classifyRay b (b.cell (corner.1 + d.1) (corner.2 + d.2))
      (corner.1 + d.1, corner.2 + d.2) d 6 = ScanClass.fault

instance (b : Board) (corner d : Move) : Decidable (dirFault b corner d) := by
  unfold dirFault
  infer_instance

/-- The claim's abort condition: some empty corner has a direction whose scan
faults. -/
def CornersFault (b : Board) : Prop :=
  ∃ corner ∈ CORNERS, b.cell corner.1 corner.2 = Color.empty ∧
    ∃ d ∈ DIRECTIONS, dirFault b corner d

instance (b : Board) : Decidable (CornersFault b) := by
  unfold CornersFault
  infer_instance

lemma scanDirs_eq_none (b : Board) (corner : Move) :
    ∀ (ds : List Move) (cnt : Counts3),
      (scanDirs b corner ds cnt = none ↔ ∃ d ∈ ds, dirFault b corner d) := by
  intro ds
  induction ds with
  | nil => intro cnt; simp [scanDirs]
  | cons d ds ih =>
    intro cnt
    rw [scanDirs]
    by_cases hskip : b.cell (corner.1 + d.1) (corner.2 + d.2) = Color.empty ∨
        b.cell (corner.1 + d.1) (corner.2 + d.2) = Color.outer
    · rw [if_pos hskip, ih]
      simp only [List.exists_mem_cons_iff]
      have : ¬dirFault b corner d := fun hf => hf.1 hskip
      tauto
    · rw [if_neg hskip]
      rcases hcl : classifyRay b (b.cell (corner.1 + d.1) (corner.2 + d.2))
          (corner.1 + d.1, corner.2 + d.2) d 6 with _ | _ | _ | _
      all_goals simp only [List.exists_mem_cons_iff]
      · rw [ih]
        have : ¬dirFault b corner d := fun hf => by
          have h2 := hf.2
          rw [hcl] at h2
          cases h2
        tauto
      · rw [ih]
        have : ¬dirFault b corner d := fun hf => by
          have h2 := hf.2
          rw [hcl] at h2
          cases h2
        tauto
      · rw [ih]
        have : ¬dirFault b corner d := fun hf => by
          have h2 := hf.2
          rw [hcl] at h2
          cases h2
        tauto
      · have : dirFault b corner d := ⟨hskip, hcl⟩
        simp [this]

lemma scanCornersAux_eq_none (b : Board) :
    ∀ (cs : List Move) (cnt : Counts3),
      (scanCornersAux b cs cnt = none ↔
        ∃ corner ∈ cs, b.cell corner.1 corner.2 = Color.empty ∧
          ∃ d ∈ DIRECTIONS, dirFault b corner d) := by
  intro cs
  induction cs with
  | nil => intro cnt; simp [scanCornersAux]
  | cons corner cs ih =>
    intro cnt
    rw [scanCornersAux]
    by_cases hocc : b.cell corner.1 corner.2 ≠ Color.empty
    · rw [if_pos hocc, ih]
      simp only [List.exists_mem_cons_iff]
      tauto
    · rw [if_neg hocc]
      push_neg at hocc
      rcases hsd : scanDirs b corner DIRECTIONS cnt with _ | cnt'
      · simp only [List.exists_mem_cons_iff]
        have : ∃ d ∈ DIRECTIONS, dirFault b corner d := (scanDirs_eq_none b corner _ _).mp hsd
        simp [hocc, this]
      · rw [ih]
        simp only [List.exists_mem_cons_iff]
        have hnf : ¬∃ d ∈ DIRECTIONS, dirFault b corner d := by
          rw [← scanDirs_eq_none b corner DIRECTIONS cnt, hsd]
          simp
        constructor
        · intro h
          exact Or.inr h
        · rintro (⟨_, hex⟩ | h)
          · exact absurd hex hnf
          · exact h

/-- C8.  Whenever some empty corner has a non-empty on-board immediate
neighbour whose 6-step directional scan meets an off-board cell as the first
differing cell, `corners_heuristic` aborts with the `RuntimeError` (modelled
`none`); on boards where that never happens it returns a value. -/
theorem C8_corner_fault (b : Board) (c : Color) :
    (CornersFault b → cornersHeuristic b c = none) ∧
    (¬CornersFault b → ∃ q, cornersHeuristic b c = some q) := by
  have hscan : scanCorners b = none ↔ CornersFault b := by
    rw [scanCorners, scanCornersAux_eq_none]
    rfl
  constructor
  · intro h
    rw [cornersHeuristic, hscan.mpr h]
  · intro h
    rcases hs : scanCorners b with _ | cnt
    · exact absurd (hscan.mp hs) h
    · exact ⟨cornersCombine b cnt c, by rw [cornersHeuristic, hs]⟩

theorem C8_corner_fault_witness :
    (CornersFault faultBoard ∧ cornersHeuristic faultBoard Color.white = none) ∧
    (¬CornersFault emptyBoard ∧ ∃ q, cornersHeuristic emptyBoard Color.white = some q) :=
  ⟨⟨by decide, (C8_corner_fault faultBoard Color.white).1 (by decide)⟩,
   ⟨by decide, (C8_corner_fault emptyBoard Color.white).2 (by decide)⟩⟩

/-! ## C9 — antisymmetry of the sub-heuristics under side swap -/

lemma cornersCombine_neg (b : Board) (cnt : Counts3) (c : Color)
    (hc : c = Color.white ∨ c = Color.black) :
    cornersCombine b cnt c.opposite = -cornersCombine b cnt c := by
  simp only [cornersCombine]
  rw [Color.opposite_opposite hc]
  rw [guardedRatio_neg ((occCorners b c : ℚ)) ((occCorners b c.opposite : ℚ)),
    guardedRatio_neg ((cnt.unl.get c : ℚ)) ((cnt.unl.get c.opposite : ℚ)),
    guardedRatio_neg ((cnt.pot.get c : ℚ)) ((cnt.pot.get c.opposite : ℚ)),
    guardedRatio_neg ((cnt.irr.get c : ℚ)) ((cnt.irr.get c.opposite : ℚ))]
  ring

/-- C9.  Each sub-heuristic is antisymmetric under swapping the side for its
opposite: when `score_heuristic` is defined (nonzero denominator) its value
negates, `corners_heuristic` negates whenever it returns a value, and the
total `mobility_heuristic` and `stability_heuristic` always negate (their
zero-denominator ratios contribute 0 = -0). -/
theorem C9_antisymmetry (b : Board) (c : Color) (hc : c = Color.white ∨ c = Color.black) :
    (∀ q : ℚ, scoreHeuristic b c = some q → scoreHeuristic b c.opposite = some (-q)) ∧
    (∀ q : ℚ, cornersHeuristic b c = some q → cornersHeuristic b c.opposite = some (-q)) ∧
    mobilityHeuristic b c.opposite = -mobilityHeuristic b c ∧
    stabilityHeuristic b c.opposite = -stabilityHeuristic b c := by
  refine ⟨?_, ?_, ?_, ?_⟩
  · intro q hq
    rcases hc with hcw | hcb <;> subst c <;>
      rw [scoreHeuristic] at hq ⊢ <;>
      simp only [Color.opposite_white, Color.opposite_black, if_true, if_false,
        reduceCtorEq, reduceIte] at hq ⊢
    · rcases eq_or_ne ((boardScore b).1 + (boardScore b).2 : ℚ) 0 with h0 | h0
      · rw [if_pos h0] at hq
        cases hq
      · rw [if_neg h0] at hq
        have h0' : ((boardScore b).2 + (boardScore b).1 : ℚ) ≠ 0 := by
          rwa [add_comm]
        rw [if_neg h0']
        rw [Option.some_inj] at hq ⊢
        rw [← hq, ratioPair_neg]
    · rcases eq_or_ne ((boardScore b).2 + (boardScore b).1 : ℚ) 0 with h0 | h0
      · rw [if_pos h0] at hq
        cases hq
      · rw [if_neg h0] at hq
        have h0' : ((boardScore b).1 + (boardScore b).2 : ℚ) ≠ 0 := by
          rwa [add_comm]
        rw [if_neg h0']
        rw [Option.some_inj] at hq ⊢
        rw [← hq, ratioPair_neg]
  · intro q hq
    rw [cornersHeuristic] at hq ⊢
    rcases hs : scanCorners b with _ | cnt
    · rw [hs] at hq
      cases hq
    · rw [hs] at hq
      rw [Option.some_inj] at hq
      show some (cornersCombine b cnt c.opposite) = some (-q)
      rw [cornersCombine_neg b cnt c hc, hq]
  · rw [mobilityHeuristic, mobilityHeuristic, Color.opposite_opposite hc]
    rw [guardedRatio_neg (((b.validMoves c).length : ℚ)) (((b.validMoves c.opposite).length : ℚ)),
      guardedRatio_neg ((frontCount b c : ℚ)) ((frontCount b c.opposite : ℚ))]
    ring
  · rw [stabilityHeuristic, stabilityHeuristic, Color.opposite_opposite hc,
      guardedRatio_neg ((stabCount b c : ℚ)) ((stabCount b c.opposite : ℚ))]

theorem C9_antisymmetry_witness :
    (Color.white = Color.white ∨ Color.white = Color.black) ∧
    scoreHeuristic B1 Color.white.opposite = some (-(100 : ℚ)) ∧
    mobilityHeuristic B1 Color.white.opposite = -mobilityHeuristic B1 Color.white :=
  ⟨Or.inl rfl,
   (C9_antisymmetry B1 Color.white (Or.inl rfl)).1 100 B1_score,
   (C9_antisymmetry B1 Color.white (Or.inl rfl)).2.2.1⟩

/-! ## Search infrastructure lemmas -/

lemma abChildren_of_pruned (mx : Bool) (childR : Move → Ext → Ext → Ext × List (Ext × Ext)) :
    ∀ (ms : List Move) (st : FoldSt), st.pruned = true → abChildren mx childR ms st = st := by
  intro ms
  induction ms with
  | nil => intro st h; rfl
  | cons m ms ih =>
    intro st h
    rw [abChildren, if_pos h]
    exact ih st h

/-- The driver's maximizing backtrack update when the new best reaches
`beta`: the cutoff branch. -/
lemma bu_max_prune (st : FoldSt) (r : Ext) (m : Move) (h : st.beta ≤ max st.evaluation r) :
    backtrackUpdate true st r m
      = { st with
          evaluation := max st.evaluation r,
          next_move := if st.evaluation < r then m else st.next_move,
          pruned := true } := by
  rw [backtrackUpdate]
  rcases lt_or_ge st.evaluation r with h1 | h1
  · have hm : max st.evaluation r = r := max_eq_right h1.le
    rw [hm] at h ⊢
    simp only [if_pos rfl, if_true, gt_iff_lt, ge_iff_le, if_pos h1, if_pos h]
  · have hm : max st.evaluation r = st.evaluation := max_eq_left h1
    rw [hm] at h ⊢
    simp only [if_pos rfl, if_true, gt_iff_lt, ge_iff_le, if_neg (not_lt.mpr h1), if_pos h]

/-- The driver's maximizing backtrack update below `beta`: no cutoff, the
window's `alpha` is raised to the best. -/
lemma bu_max_go (st : FoldSt) (r : Ext) (m : Move) (h : ¬st.beta ≤ max st.evaluation r) :
    backtrackUpdate true st r m
      = { st with
          evaluation := max st.evaluation r,
          next_move := if st.evaluation < r then m else st.next_move,
          alpha := max st.alpha (max st.evaluation r) } := by
  rw [backtrackUpdate]
  rcases lt_or_ge st.evaluation r with h1 | h1
  · have hm : max st.evaluation r = r := max_eq_right h1.le
    rw [hm] at h ⊢
    rcases lt_or_ge st.alpha r with h3 | h3
    · simp only [if_pos rfl, if_true, gt_iff_lt, ge_iff_le, if_pos h1, if_neg h, if_pos h3,
        max_eq_right h3.le]
    · simp only [if_pos rfl, if_true, gt_iff_lt, ge_iff_le, if_pos h1, if_neg h,
        if_neg (not_lt.mpr h3), max_eq_left h3]
  · have hm : max st.evaluation r = st.evaluation := max_eq_left h1
    rw [hm] at h ⊢
    rcases lt_or_ge st.alpha st.evaluation with h3 | h3
    · simp only [if_pos rfl, if_true, gt_iff_lt, ge_iff_le, if_neg (not_lt.mpr h1), if_neg h,
        if_pos h3, max_eq_right h3.le]
    · simp only [if_pos rfl, if_true, gt_iff_lt, ge_iff_le, if_neg (not_lt.mpr h1), if_neg h,
        if_neg (not_lt.mpr h3), max_eq_left h3]

/-- The driver's minimizing backtrack update when the new best falls to
`alpha`: the cutoff branch (note `beta` was already pre-tightened to
`min(beta, r)`). -/
lemma bu_min_prune (st : FoldSt) (r : Ext) (m : Move) (h : min st.evaluation r ≤ st.alpha) :
    backtrackUpdate false st r m
      = { st with
          evaluation := min st.evaluation r,
          next_move := if r ≤ st.evaluation then m else st.next_move,
          beta := min st.beta r, pruned := true } := by
  rw [backtrackUpdate]
  rcases le_or_lt r st.evaluation with h1 | h1
  · have hm : min st.evaluation r = r := min_eq_right h1
    rw [hm] at h ⊢
    simp only [Bool.false_eq_true, if_false, if_pos h1, if_pos h]
  · have hm : min st.evaluation r = st.evaluation := min_eq_left h1.le
    rw [hm] at h ⊢
    simp only [Bool.false_eq_true, if_false, if_neg (not_le.mpr h1), if_pos h]

/-- The driver's minimizing backtrack update above `alpha`: no cutoff; the
resulting `beta` is `min(beta, r)` further lowered to the best when the best
is smaller. -/
lemma bu_min_go (st : FoldSt) (r : Ext) (m : Move) (h : ¬min st.evaluation r ≤ st.alpha) :
    backtrackUpdate false st r m
      = { st with
          evaluation := min st.evaluation r,
          next_move := if r ≤ st.evaluation then m else st.next_move,
          beta := min (min st.beta r) (min st.evaluation r) } := by
  rw [backtrackUpdate]
  rcases le_or_lt r st.evaluation with h1 | h1
  · have hm : min st.evaluation r = r := min_eq_right h1
    rw [hm] at h ⊢
    rcases lt_or_ge r (min st.beta r) with h3 | h3
    · simp only [Bool.false_eq_true, if_false, if_pos h1, if_neg h, if_pos h3,
        min_eq_right h3.le]
    · simp only [Bool.false_eq_true, if_false, if_pos h1, if_neg h, if_neg (not_lt.mpr h3),
        min_eq_left h3]
  · have hm : min st.evaluation r = st.evaluation := min_eq_left h1.le
    rw [hm] at h ⊢
    rcases lt_or_ge st.evaluation (min st.beta r) with h3 | h3
    · simp only [Bool.false_eq_true, if_false, if_neg (not_le.mpr h1), if_neg h, if_pos h3,
        min_eq_right h3.le]
    · simp only [Bool.false_eq_true, if_false, if_neg (not_le.mpr h1), if_neg h,
        if_neg (not_lt.mpr h3), min_eq_left h3]

lemma maxRun_eq (f : Move → Ext) : ∀ (ms : List Move) (e : Ext),
    maxRun f ms e = max e (maxRun f ms ⊥) := by
  intro ms
  induction ms with
  | nil => intro e; simp [maxRun]
  | cons m ms ih =>
    intro e
    rw [maxRun, maxRun, ih (max e (f m)), ih (max ⊥ (f m))]
    rw [max_comm (⊥ : Ext) (f m), max_bot_right, max_assoc]

lemma minRun_eq (f : Move → Ext) : ∀ (ms : List Move) (e : Ext),
    minRun f ms e = min e (minRun f ms ⊤) := by
  intro ms
  induction ms with
  | nil => intro e; simp [minRun]
  | cons m ms ih =>
    intro e
    rw [minRun, minRun, ih (min e (f m)), ih (min ⊤ (f m))]
    rw [min_comm (⊤ : Ext) (f m), min_top_right, min_assoc]

lemma le_maxRun (f : Move → Ext) : ∀ (ms : List Move) (e : Ext), e ≤ maxRun f ms e := by
  intro ms
  induction ms with
  | nil => intro e; exact le_refl e
  | cons m ms ih => intro e; exact le_trans (le_max_left _ _) (ih (max e (f m)))

lemma minRun_le (f : Move → Ext) : ∀ (ms : List Move) (e : Ext), minRun f ms e ≤ e := by
  intro ms
  induction ms with
  | nil => intro e; exact le_refl e
  | cons m ms ih => intro e; exact le_trans (ih (min e (f m))) (min_le_left _ _)

lemma maxRun_mono (f : Move → Ext) : ∀ (ms : List Move) {a b : Ext}, a ≤ b →
    maxRun f ms a ≤ maxRun f ms b := by
  intro ms
  induction ms with
  | nil => intro a b h; exact h
  | cons m ms ih => intro a b h; exact ih (max_le_max h (le_refl (f m)))

lemma minRun_mono (f : Move → Ext) : ∀ (ms : List Move) {a b : Ext}, a ≤ b →
    minRun f ms a ≤ minRun f ms b := by
  intro ms
  induction ms with
  | nil => intro a b h; exact h
  | cons m ms ih => intro a b h; exact ih (min_le_min h (le_refl (f m)))

lemma maxRun_ne_top (f : Move → Ext) : ∀ (ms : List Move) (e : Ext), e ≠ ⊤ →
    (∀ m ∈ ms, f m ≠ ⊤) → maxRun f ms e ≠ ⊤ := by
  intro ms
  induction ms with
  | nil => intro e he _; exact he
  | cons m ms ih =>
    intro e he hf
    rw [maxRun]
    refine ih _ ?_ fun m' hm' => hf m' (List.mem_cons_of_mem m hm')
    have h1 : e < ⊤ := lt_top_of_ne_top he
    have h2 : f m < ⊤ := lt_top_of_ne_top (hf m (List.mem_cons_self m ms))
    exact ne_top_of_lt (max_lt h1 h2)

lemma minRun_ne_bot (f : Move → Ext) : ∀ (ms : List Move) (e : Ext), e ≠ ⊥ →
    (∀ m ∈ ms, f m ≠ ⊥) → minRun f ms e ≠ ⊥ := by
  intro ms
  induction ms with
  | nil => intro e he _; exact he
  | cons m ms ih =>
    intro e he hf
    rw [minRun]
    refine ih _ ?_ fun m' hm' => hf m' (List.mem_cons_of_mem m hm')
    have h1 : ⊥ < e := bot_lt_of_ne_bot he
    have h2 : ⊥ < f m := bot_lt_of_ne_bot (hf m (List.mem_cons_self m ms))
    exact ne_bot_of_gt (lt_min h1 h2)

lemma fwChildren_fst_max (f : Move → Ext) : ∀ (ms : List Move) (w : Ext × Move),
    (fwChildren true f ms w).1 = maxRun f ms w.1 := by
  intro ms
  induction ms with
  | nil => intro w; rfl
  | cons m ms ih =>
    intro w
    rw [fwChildren, maxRun, ih]
    congr 1
    rw [fwUpdate]
    rcases lt_or_ge w.1 (f m) with h | h
    · simp [if_pos h, max_eq_right h.le]
    · simp [if_neg (not_lt.mpr h), max_eq_left h]

lemma fwChildren_fst_min (f : Move → Ext) : ∀ (ms : List Move) (w : Ext × Move),
    (fwChildren false f ms w).1 = minRun f ms w.1 := by
  intro ms
  induction ms with
  | nil => intro w; rfl
  | cons m ms ih =>
    intro w
    rw [fwChildren, minRun, ih]
    congr 1
    rw [fwUpdate]
    rcases le_or_lt (f m) w.1 with h | h
    · simp [if_pos h, min_eq_right h]
    · simp [if_neg (not_le.mpr h), min_eq_left h.le]

lemma closeEval_finite (e : Ext) (h : ℚ) : ExtFinite (closeEval e h) := by
  rw [closeEval]
  rcases em (e = ⊥ ∨ e = ⊤) with hc | hc
  · rw [if_pos hc]; exact extFinite_finE h
  · rw [if_neg hc]; push_neg at hc; exact hc

lemma closeEval_of_finite (e : Ext) (h : ℚ) (he : ExtFinite e) : closeEval e h = e := by
  rw [closeEval, if_neg]
  rintro (hb | ht)
  · exact he.1 hb
  · exact he.2 ht

/-! Unfold lemmas for one step of the children walk, flattened to a single
record literal (split on whether the update prunes). -/

lemma abChildren_cons_max_prune (childR : Move → Ext → Ext → Ext × List (Ext × Ext))
    (m : Move) (ms : List Move) (st : FoldSt) (hp : st.pruned = false)
    (h : st.beta ≤ max st.evaluation (childR m st.alpha st.beta).1) :
    abChildren true childR (m :: ms) st
      = { st with
          evaluation := max st.evaluation (childR m st.alpha st.beta).1,
          next_move := if st.evaluation < (childR m st.alpha st.beta).1 then m
            else st.next_move,
          pruned := true,
          trace := st.trace ++ (st.alpha, st.beta) :: (childR m st.alpha st.beta).2 } := by
  rw [abChildren, hp]
  simp only [Bool.false_eq_true, if_false]
  rw [bu_max_prune st _ m h]
  rw [abChildren_of_pruned true childR ms _ rfl]

lemma abChildren_cons_max_go (childR : Move → Ext → Ext → Ext × List (Ext × Ext))
    (m : Move) (ms : List Move) (st : FoldSt) (hp : st.pruned = false)
    (h : ¬st.beta ≤ max st.evaluation (childR m st.alpha st.beta).1) :
    abChildren true childR (m :: ms) st = abChildren true childR ms
      { st with
        evaluation := max st.evaluation (childR m st.alpha st.beta).1,
        next_move := if st.evaluation < (childR m st.alpha st.beta).1 then m
          else st.next_move,
        alpha := max st.alpha (max st.evaluation (childR m st.alpha st.beta).1),
        trace := st.trace ++ (st.alpha, st.beta) :: (childR m st.alpha st.beta).2 } := by
  obtain ⟨a1, b1, e1, n1, p1, t1⟩ := st
  dsimp only at hp h ⊢
  rw [abChildren, hp]
  simp only [Bool.false_eq_true, if_false]
  rw [bu_max_go _ _ m h]

lemma abChildren_cons_min_prune (childR : Move → Ext → Ext → Ext × List (Ext × Ext))
    (m : Move) (ms : List Move) (st : FoldSt) (hp : st.pruned = false)
    (h : min st.evaluation (childR m st.alpha st.beta).1 ≤ st.alpha) :
    abChildren false childR (m :: ms) st
      = { st with
          evaluation := min st.evaluation (childR m st.alpha st.beta).1,
          next_move := if (childR m st.alpha st.beta).1 ≤ st.evaluation then m
            else st.next_move,
          beta := min st.beta (childR m st.alpha st.beta).1,
          pruned := true,
          trace := st.trace ++ (st.alpha, st.beta) :: (childR m st.alpha st.beta).2 } := by
  rw [abChildren, hp]
  simp only [Bool.false_eq_true, if_false]
  rw [bu_min_prune st _ m h]
  rw [abChildren_of_pruned false childR ms _ rfl]

lemma abChildren_cons_min_go (childR : Move → Ext → Ext → Ext × List (Ext × Ext))
    (m : Move) (ms : List Move) (st : FoldSt) (hp : st.pruned = false)
    (h : ¬min st.evaluation (childR m st.alpha st.beta).1 ≤ st.alpha) :
    abChildren false childR (m :: ms) st = abChildren false childR ms
      { st with
        evaluation := min st.evaluation (childR m st.alpha st.beta).1,
        next_move := if (childR m st.alpha st.beta).1 ≤ st.evaluation then m
          else st.next_move,
        beta := min (min st.beta (childR m st.alpha st.beta).1)
          (min st.evaluation (childR m st.alpha st.beta).1),
        trace := st.trace ++ (st.alpha, st.beta) :: (childR m st.alpha st.beta).2 } := by
  obtain ⟨a1, b1, e1, n1, p1, t1⟩ := st
  dsimp only at hp h ⊢
  rw [abChildren, hp]
  simp only [Bool.false_eq_true, if_false]
  rw [bu_min_go _ _ m h]

/-! One-step lemmas specialized to the invariant state shapes.  A maximizing
node's live state is `⟨max a0 E, b0, E, nm, false, tr⟩` (its `alpha` is the
inherited `a0` raised to the running best `E`, its `beta` the inherited `b0`);
a minimizing node's is `⟨a0, min b0 E, E, nm, false, tr⟩`. -/

lemma abChildren_max_step_prune (childR : Move → Ext → Ext → Ext × List (Ext × Ext))
    (m : Move) (ms : List Move) (a0 b0 E : Ext) (nm : Move) (tr : List (Ext × Ext))
    (hpr : b0 ≤ max E (childR m (max a0 E) b0).1) :
    abChildren true childR (m :: ms) ⟨max a0 E, b0, E, nm, false, tr⟩
      = ⟨max a0 E, b0, max E (childR m (max a0 E) b0).1,
          if E < (childR m (max a0 E) b0).1 then m else nm, true,
          tr ++ (max a0 E, b0) :: (childR m (max a0 E) b0).2⟩ := by
  rw [abChildren_cons_max_prune childR m ms ⟨max a0 E, b0, E, nm, false, tr⟩ rfl hpr]

lemma abChildren_max_step_go (childR : Move → Ext → Ext → Ext × List (Ext × Ext))
    (m : Move) (ms : List Move) (a0 b0 E : Ext) (nm : Move) (tr : List (Ext × Ext))
    (hpr : ¬b0 ≤ max E (childR m (max a0 E) b0).1) :
    abChildren true childR (m :: ms) ⟨max a0 E, b0, E, nm, false, tr⟩
      = abChildren true childR ms
          ⟨max a0 (max E (childR m (max a0 E) b0).1), b0,
            max E (childR m (max a0 E) b0).1,
            if E < (childR m (max a0 E) b0).1 then m else nm, false,
            tr ++ (max a0 E, b0) :: (childR m (max a0 E) b0).2⟩ := by
  rw [abChildren_cons_max_go childR m ms ⟨max a0 E, b0, E, nm, false, tr⟩ rfl hpr]
  congr 1
  dsimp only
  rw [max_assoc, ← max_assoc E E _, max_self]

lemma abChildren_min_step_prune (childR : Move → Ext → Ext → Ext × List (Ext × Ext))
    (m : Move) (ms : List Move) (a0 b0 E : Ext) (nm : Move) (tr : List (Ext × Ext))
    (hpr : min E (childR m a0 (min b0 E)).1 ≤ a0) :
    abChildren false childR (m :: ms) ⟨a0, min b0 E, E, nm, false, tr⟩
      = ⟨a0, min (min b0 E) (childR m a0 (min b0 E)).1,
          min E (childR m a0 (min b0 E)).1,
          if (childR m a0 (min b0 E)).1 ≤ E then m else nm, true,
          tr ++ (a0, min b0 E) :: (childR m a0 (min b0 E)).2⟩ := by
  rw [abChildren_cons_min_prune childR m ms ⟨a0, min b0 E, E, nm, false, tr⟩ rfl hpr]

lemma abChildren_min_step_go (childR : Move → Ext → Ext → Ext × List (Ext × Ext))
    (m : Move) (ms : List Move) (a0 b0 E : Ext) (nm : Move) (tr : List (Ext × Ext))
    (hpr : ¬min E (childR m a0 (min b0 E)).1 ≤ a0) :
    abChildren false childR (m :: ms) ⟨a0, min b0 E, E, nm, false, tr⟩
      = abChildren false childR ms
          ⟨a0, min b0 (min E (childR m a0 (min b0 E)).1),
            min E (childR m a0 (min b0 E)).1,
            if (childR m a0 (min b0 E)).1 ≤ E then m else nm, false,
            tr ++ (a0, min b0 E) :: (childR m a0 (min b0 E)).2⟩ := by
  rw [abChildren_cons_min_go childR m ms ⟨a0, min b0 E, E, nm, false, tr⟩ rfl hpr]
  congr 1
  dsimp only
  generalize (childR m a0 (min b0 E)).1 = R
  rw [min_assoc b0 E R, min_assoc b0 (min E R) (min E R), min_self]

/-- Fail-soft contract for the walk over a maximizing node's children
(inherited window `(a0, b0)`, running best `E`): the final best relates to
the full-width running maximum of the children's true values as alpha-beta
theory predicts — a sound upper bound at or below `a0`, a sound lower bound
at or beyond `b0` (cutoff), exact strictly inside the window — and is
monotone and finite. -/
lemma abChildren_max_tri
    (childR : Move → Ext → Ext → Ext × List (Ext × Ext)) (childV : Move → Ext)
    (a0 b0 : Ext) (hab : a0 < b0) :
    ∀ (ms : List Move) (E : Ext) (nm : Move) (tr : List (Ext × Ext)),
      (∀ m ∈ ms, TriAt childR childV m) →
      (∀ m ∈ ms, ∀ a b : Ext, ExtFinite (childR m a b).1) →
      E < b0 → E ≠ ⊤ →
      ((abChildren true childR ms ⟨max a0 E, b0, E, nm, false, tr⟩).evaluation ≤ a0 →
          maxRun childV ms E
            ≤ (abChildren true childR ms ⟨max a0 E, b0, E, nm, false, tr⟩).evaluation) ∧
      (b0 ≤ (abChildren true childR ms ⟨max a0 E, b0, E, nm, false, tr⟩).evaluation →
          (abChildren true childR ms ⟨max a0 E, b0, E, nm, false, tr⟩).evaluation
            ≤ maxRun childV ms E) ∧
      (a0 < (abChildren true childR ms ⟨max a0 E, b0, E, nm, false, tr⟩).evaluation →
          (abChildren true childR ms ⟨max a0 E, b0, E, nm, false, tr⟩).evaluation < b0 →
          (abChildren true childR ms ⟨max a0 E, b0, E, nm, false, tr⟩).evaluation
            = maxRun childV ms E) ∧
      E ≤ (abChildren true childR ms ⟨max a0 E, b0, E, nm, false, tr⟩).evaluation ∧
      (abChildren true childR ms ⟨max a0 E, b0, E, nm, false, tr⟩).evaluation ≠ ⊤ ∧
      (ms ≠ [] →
        (abChildren true childR ms ⟨max a0 E, b0, E, nm, false, tr⟩).evaluation ≠ ⊥) := by
  intro ms
  induction ms with
  | nil =>
    intro E nm tr _ _ he hetop
    simp only [abChildren, maxRun]
    refine ⟨fun _ => le_refl E, fun _ => le_refl E, ?_, le_refl E, hetop, ?_⟩
    · first
      | exact fun _ _ => rfl
      | exact fun _ _ => trivial
    · first
      | trivial
      | exact fun hne => absurd rfl hne
  | cons m ms ih =>
    intro E nm tr hT hF he hetop
    have hRfin : ExtFinite (childR m (max a0 E) b0).1 :=
      hF m (List.mem_cons_self m ms) (max a0 E) b0
    have hwin : max a0 E < b0 := max_lt hab he
    have htri := hT m (List.mem_cons_self m ms) (max a0 E) b0 hwin
    set R := (childR m (max a0 E) b0).1 with hRdef
    set v := childV m with hvdef
    have hmaxrun : maxRun childV (m :: ms) E = maxRun childV ms (max E v) := by
      rw [maxRun, ← hvdef]
    rcases le_or_lt b0 (max E R) with hpr | hpr
    · rw [abChildren_max_step_prune childR m ms a0 b0 E nm tr hpr]
      dsimp only
      have hER : max E R = R := by
        rcases max_choice E R with hc | hc
        · rw [hc] at hpr
          exact absurd hpr (not_le.mpr he)
        · exact hc
      have hRv : R ≤ v := htri.2.1 (by rw [← hER]; exact hpr)
      refine ⟨?_, ?_, ?_, le_max_left E R, by rw [hER]; exact hRfin.2,
        fun _ => by rw [hER]; exact hRfin.1⟩
      · intro hcon
        exact absurd ((hab.trans_le hpr).trans_le hcon) (lt_irrefl a0)
      · intro _
        rw [hmaxrun, hER]
        exact le_trans (hRv.trans (le_max_right E v)) (le_maxRun childV ms _)
      · intro _ hcon
        exact absurd (hpr.trans_lt hcon) (lt_irrefl b0)
    · rw [abChildren_max_step_go childR m ms a0 b0 E nm tr (not_le.mpr hpr)]
      have hE'top : max E R ≠ ⊤ :=
        ne_top_of_lt (max_lt (lt_top_of_ne_top hetop) (lt_top_of_ne_top hRfin.2))
      have ihres := ih (max E R) (if E < R then m else nm)
        (tr ++ (max a0 E, b0) :: (childR m (max a0 E) b0).2)
        (fun m' hm' => hT m' (List.mem_cons_of_mem m hm'))
        (fun m' hm' => hF m' (List.mem_cons_of_mem m hm'))
        hpr hE'top
      obtain ⟨ih1, ih2, ih3, ihmono, ihtop, _⟩ := ihres
      have hbotF : (abChildren true childR ms
          ⟨max a0 (max E R), b0, max E R, if E < R then m else nm, false,
            tr ++ (max a0 E, b0) :: (childR m (max a0 E) b0).2⟩).evaluation ≠ ⊥ :=
        ne_bot_of_gt (lt_of_lt_of_le (bot_lt_of_ne_bot hRfin.1)
          (le_trans (le_max_right E R) ihmono))
      rcases le_or_lt R (max a0 E) with hA | hA
      · have hvR : v ≤ R := htri.1 hA
        refine ⟨?_, ?_, ?_, le_trans (le_max_left E R) ihmono, ihtop, fun _ => hbotF⟩
        · intro hle
          rw [hmaxrun]
          exact le_trans (maxRun_mono childV ms (max_le_max (le_refl E) hvR)) (ih1 hle)
        · intro hge
          rw [hmaxrun]
          have hF2 := ih2 hge
          rcases le_or_lt R E with hRE | hER
          · have hWeq : maxRun childV ms (max E R) = maxRun childV ms (max E v) := by
              rw [max_eq_left hRE, max_eq_left (hvR.trans hRE)]
            exact le_of_le_of_eq hF2 hWeq
          · have hRa : R ≤ a0 := by
              rcases max_choice a0 E with hc | hc
              · rw [hc] at hA
                exact hA
              · rw [hc] at hA
                exact absurd (lt_of_lt_of_le hER hA) (lt_irrefl E)
            have hWeq : maxRun childV ms (max E R)
                = max R (maxRun childV ms ⊥) := by
              rw [max_eq_right hER.le, maxRun_eq]
            rw [maxRun_eq]
            rcases le_max_iff.mp (le_of_le_of_eq hF2 hWeq) with hc | hc
            · exact absurd (lt_of_lt_of_le hab ((hge.trans hc).trans hRa)) (lt_irrefl a0)
            · exact le_max_of_le_right hc
        · intro h1 h2
          have hFeq := ih3 h1 h2
          rw [hmaxrun]
          rcases le_or_lt R E with hRE | hER
          · have hWeq : maxRun childV ms (max E R) = maxRun childV ms (max E v) := by
              rw [max_eq_left hRE, max_eq_left (hvR.trans hRE)]
            exact hFeq.trans hWeq
          · have hRa : R ≤ a0 := by
              rcases max_choice a0 E with hc | hc
              · rw [hc] at hA
                exact hA
              · rw [hc] at hA
                exact absurd (lt_of_lt_of_le hER hA) (lt_irrefl E)
            have hWeq : maxRun childV ms (max E R)
                = max R (maxRun childV ms ⊥) := by
              rw [max_eq_right hER.le, maxRun_eq]
            have hFeq2 := hFeq.trans hWeq
            have hRS : R < maxRun childV ms ⊥ := by
              by_contra hcon
              push_neg at hcon
              rw [max_eq_left hcon] at hFeq2
              exact absurd h1 (not_lt.mpr (hFeq2.le.trans hRa))
            have hFS := hFeq2.trans (max_eq_right hRS.le)
            rw [maxRun_eq, hFS]
            exact (max_eq_right (le_trans (max_le hER.le hvR) hRS.le)).symm
      · rcases lt_or_ge R b0 with hB | hC
        · have hveq : R = v := htri.2.2 hA hB
          have hWW : maxRun childV ms (max E R) = maxRun childV ms (max E v) := by
            rw [hveq]
          refine ⟨?_, ?_, ?_, le_trans (le_max_left E R) ihmono, ihtop, fun _ => hbotF⟩
          · intro hle
            rw [hmaxrun, ← hWW]
            exact ih1 hle
          · intro hge
            rw [hmaxrun, ← hWW]
            exact ih2 hge
          · intro h1 h2
            rw [hmaxrun, ← hWW]
            exact ih3 h1 h2
        · exact absurd (le_trans hC (le_max_right E R)) (not_le.mpr hpr)

/-- Fail-soft contract for the walk over a minimizing node's children
(inherited window `(a0, b0)`, running best `E`), mirror of
`abChildren_max_tri`. -/
lemma abChildren_min_tri
    (childR : Move → Ext → Ext → Ext × List (Ext × Ext)) (childV : Move → Ext)
    (a0 b0 : Ext) (hab : a0 < b0) :
    ∀ (ms : List Move) (E : Ext) (nm : Move) (tr : List (Ext × Ext)),
      (∀ m ∈ ms, TriAt childR childV m) →
      (∀ m ∈ ms, ∀ a b : Ext, ExtFinite (childR m a b).1) →
      a0 < E → E ≠ ⊥ →
      ((abChildren false childR ms ⟨a0, min b0 E, E, nm, false, tr⟩).evaluation ≤ a0 →
          minRun childV ms E
            ≤ (abChildren false childR ms ⟨a0, min b0 E, E, nm, false, tr⟩).evaluation) ∧
      (b0 ≤ (abChildren false childR ms ⟨a0, min b0 E, E, nm, false, tr⟩).evaluation →
          (abChildren false childR ms ⟨a0, min b0 E, E, nm, false, tr⟩).evaluation
            ≤ minRun childV ms E) ∧
      (a0 < (abChildren false childR ms ⟨a0, min b0 E, E, nm, false, tr⟩).evaluation →
          (abChildren false childR ms ⟨a0, min b0 E, E, nm, false, tr⟩).evaluation < b0 →
          (abChildren false childR ms ⟨a0, min b0 E, E, nm, false, tr⟩).evaluation
            = minRun childV ms E) ∧
      (abChildren false childR ms ⟨a0, min b0 E, E, nm, false, tr⟩).evaluation ≤ E ∧
      (abChildren false childR ms ⟨a0, min b0 E, E, nm, false, tr⟩).evaluation ≠ ⊥ ∧
      (ms ≠ [] →
        (abChildren false childR ms ⟨a0, min b0 E, E, nm, false, tr⟩).evaluation ≠ ⊤) := by
  intro ms
  induction ms with
  | nil =>
    intro E nm tr _ _ he hebot
    simp only [abChildren, minRun]
    refine ⟨fun _ => le_refl E, fun _ => le_refl E, ?_, le_refl E, hebot, ?_⟩
    · first
      | exact fun _ _ => rfl
      | exact fun _ _ => trivial
    · first
      | trivial
      | exact fun hne => absurd rfl hne
  | cons m ms ih =>
    intro E nm tr hT hF he hebot
    have hRfin : ExtFinite (childR m a0 (min b0 E)).1 :=
      hF m (List.mem_cons_self m ms) a0 (min b0 E)
    have hwin : a0 < min b0 E := lt_min hab he
    have htri := hT m (List.mem_cons_self m ms) a0 (min b0 E) hwin
    set R := (childR m a0 (min b0 E)).1 with hRdef
    set v := childV m with hvdef
    have hminrun : minRun childV (m :: ms) E = minRun childV ms (min E v) := by
      rw [minRun, ← hvdef]
    rcases le_or_lt (min E R) a0 with hpr | hpr
    · rw [abChildren_min_step_prune childR m ms a0 b0 E nm tr hpr]
      dsimp only
      have hER : min E R = R := by
        rcases min_choice E R with hc | hc
        · rw [hc] at hpr
          exact absurd hpr (not_le.mpr he)
        · exact hc
      have hRv : v ≤ R := htri.1 (by rw [← hER]; exact hpr)
      refine ⟨?_, ?_, ?_, min_le_left E R, by rw [hER]; exact hRfin.1,
        fun _ => by rw [hER]; exact hRfin.2⟩
      · intro _
        rw [hminrun, hER]
        exact le_trans (minRun_le childV ms _) ((min_le_right E v).trans hRv)
      · intro hge
        exact absurd (lt_of_lt_of_le hab (hge.trans hpr)) (lt_irrefl a0)
      · intro h1 _
        exact absurd (h1.trans_le hpr) (lt_irrefl a0)
    · rw [abChildren_min_step_go childR m ms a0 b0 E nm tr (not_le.mpr hpr)]
      have hE'bot : min E R ≠ ⊥ :=
        ne_bot_of_gt (lt_min (bot_lt_of_ne_bot hebot) (bot_lt_of_ne_bot hRfin.1))
      have ihres := ih (min E R) (if R ≤ E then m else nm)
        (tr ++ (a0, min b0 E) :: (childR m a0 (min b0 E)).2)
        (fun m' hm' => hT m' (List.mem_cons_of_mem m hm'))
        (fun m' hm' => hF m' (List.mem_cons_of_mem m hm'))
        hpr hE'bot
      obtain ⟨ih1, ih2, ih3, ihmono, ihbot, _⟩ := ihres
      have htopF : (abChildren false childR ms
          ⟨a0, min b0 (min E R), min E R, if R ≤ E then m else nm, false,
            tr ++ (a0, min b0 E) :: (childR m a0 (min b0 E)).2⟩).evaluation ≠ ⊤ :=
        ne_top_of_lt (lt_of_le_of_lt (le_trans ihmono (min_le_right E R))
          (lt_top_of_ne_top hRfin.2))
      rcases le_or_lt (min b0 E) R with hA | hB
      · have hRv : R ≤ v := htri.2.1 hA
        refine ⟨?_, ?_, ?_, le_trans ihmono (min_le_left E R), ihbot, fun _ => htopF⟩
        · intro hle
          rw [hminrun]
          have hF2 := ih1 hle
          rcases le_or_lt E R with hRE | hER
          · have hWeq : minRun childV ms (min E R) = minRun childV ms (min E v) := by
              rw [min_eq_left hRE, min_eq_left (hRE.trans hRv)]
            exact le_of_eq_of_le hWeq.symm hF2
          · have hRb : b0 ≤ R := by
              rcases min_choice b0 E with hc | hc
              · rw [hc] at hA
                exact hA
              · rw [hc] at hA
                exact absurd (lt_of_le_of_lt hA hER) (lt_irrefl E)
            have hWeq : minRun childV ms (min E R)
                = min R (minRun childV ms ⊤) := by
              rw [min_eq_right hER.le, minRun_eq]
            rw [minRun_eq]
            rcases min_le_iff.mp (le_of_eq_of_le hWeq.symm hF2) with hc | hc
            · exact absurd (lt_of_lt_of_le hab (hRb.trans (hc.trans hle))) (lt_irrefl a0)
            · exact le_trans (min_le_right _ _) hc
        · intro hge
          rw [hminrun]
          have hF2 := ih2 hge
          rcases le_or_lt E R with hRE | hER
          · have hWeq : minRun childV ms (min E R) = minRun childV ms (min E v) := by
              rw [min_eq_left hRE, min_eq_left (hRE.trans hRv)]
            exact le_of_le_of_eq hF2 hWeq
          · have hWeq : minRun childV ms (min E R)
                = min R (minRun childV ms ⊤) := by
              rw [min_eq_right hER.le, minRun_eq]
            have hF3 := le_of_le_of_eq hF2 hWeq
            rw [minRun_eq]
            exact le_min (le_min ((hF3.trans (min_le_left _ _)).trans hER.le)
              ((hF3.trans (min_le_left _ _)).trans hRv)) (hF3.trans (min_le_right _ _))
        · intro h1 h2
          have hFeq := ih3 h1 h2
          rw [hminrun]
          rcases le_or_lt E R with hRE | hER
          · have hWeq : minRun childV ms (min E R) = minRun childV ms (min E v) := by
              rw [min_eq_left hRE, min_eq_left (hRE.trans hRv)]
            exact hFeq.trans hWeq
          · have hRb : b0 ≤ R := by
              rcases min_choice b0 E with hc | hc
              · rw [hc] at hA
                exact hA
              · rw [hc] at hA
                exact absurd (lt_of_le_of_lt hA hER) (lt_irrefl E)
            have hWeq : minRun childV ms (min E R)
                = min R (minRun childV ms ⊤) := by
              rw [min_eq_right hER.le, minRun_eq]
            have hFeq2 := hFeq.trans hWeq
            have hRS : minRun childV ms ⊤ < R := by
              by_contra hcon
              push_neg at hcon
              rw [min_eq_left hcon] at hFeq2
              exact absurd h2 (not_lt.mpr (hRb.trans hFeq2.ge))
            have hFS := hFeq2.trans (min_eq_right hRS.le)
            rw [minRun_eq, hFS]
            exact (min_eq_right (le_trans hRS.le (le_min hER.le hRv))).symm
      · rcases le_or_lt R a0 with hC2 | hA2
        · exact absurd (hpr.trans_le ((min_le_right E R).trans hC2)) (lt_irrefl a0)
        · have hveq : R = v := htri.2.2 hA2 hB
          have hWW : minRun childV ms (min E R) = minRun childV ms (min E v) := by
            rw [hveq]
          refine ⟨?_, ?_, ?_, le_trans ihmono (min_le_left E R), ihbot, fun _ => htopF⟩
          · intro hle
            rw [hminrun, ← hWW]
            exact ih1 hle
          · intro hge
            rw [hminrun, ← hWW]
            exact ih2 hge
          · intro h1 h2
            rw [hminrun, ← hWW]
            exact ih3 h1 h2

lemma le_maxRun_of_mem (f : Move → Ext) :
    ∀ (ms : List Move) (e : Ext) (m : Move), m ∈ ms → f m ≤ maxRun f ms e := by
  intro ms
  induction ms with
  | nil => intro e m hm; cases hm
  | cons m' ms ih =>
    intro e m hm
    rw [maxRun]
    rcases List.mem_cons.mp hm with hm | hm
    · subst hm
      exact le_trans (le_max_right e (f m)) (le_maxRun f ms _)
    · exact ih _ m hm

lemma minRun_le_of_mem (f : Move → Ext) :
    ∀ (ms : List Move) (e : Ext) (m : Move), m ∈ ms → minRun f ms e ≤ f m := by
  intro ms
  induction ms with
  | nil => intro e m hm; cases hm
  | cons m' ms ih =>
    intro e m hm
    rw [minRun]
    rcases List.mem_cons.mp hm with hm | hm
    · subst hm
      exact le_trans (minRun_le f ms _) (min_le_right e (f m))
    · exact ih _ m hm

lemma abNode_finite {σ : Type} (g : Game σ) (sc : Color) (fuel : ℕ) (s : σ) (c : Color)
    (mx : Bool) (alpha beta : Ext) :
    ExtFinite (abNode g sc fuel s c mx alpha beta).evaluation := by
  rcases fuel with _ | _ | f <;> exact closeEval_finite _ _

lemma fwNode_finite {σ : Type} (g : Game σ) (sc : Color) (fuel : ℕ) (s : σ) (c : Color)
    (mx : Bool) : ExtFinite (fwNode g sc fuel s c mx).1 := by
  rcases fuel with _ | _ | f <;> exact closeEval_finite _ _

/-- One node's fail-soft trichotomy, given the per-child contracts: the
node's closed alpha-beta evaluation versus its closed full-width value. -/
lemma abBody_node_tri {σ : Type} (g : Game σ) (sc : Color) (s : σ) (c : Color) (mx : Bool)
    (alpha beta : Ext) (hab : alpha < beta)
    (childR : Move → Ext → Ext → Ext × List (Ext × Ext)) (childV : Move → Ext)
    (hT : ∀ m ∈ g.validMoves s c, TriAt childR childV m)
    (hFr : ∀ m ∈ g.validMoves s c, ∀ a b : Ext, ExtFinite (childR m a b).1)
    (hFv : ∀ m ∈ g.validMoves s c, ExtFinite (childV m)) :
    ((abBody g sc s c mx alpha beta childR).evaluation ≤ alpha →
        closeEval ((fwChildren mx childV (g.validMoves s c) (if mx then ⊥ else ⊤, (0, 0))).1)
            (g.eval s sc)
          ≤ (abBody g sc s c mx alpha beta childR).evaluation) ∧
    (beta ≤ (abBody g sc s c mx alpha beta childR).evaluation →
        (abBody g sc s c mx alpha beta childR).evaluation
          ≤ closeEval ((fwChildren mx childV (g.validMoves s c)
              (if mx then ⊥ else ⊤, (0, 0))).1) (g.eval s sc)) ∧
    (alpha < (abBody g sc s c mx alpha beta childR).evaluation →
        (abBody g sc s c mx alpha beta childR).evaluation < beta →
        (abBody g sc s c mx alpha beta childR).evaluation
          = closeEval ((fwChildren mx childV (g.validMoves s c)
              (if mx then ⊥ else ⊤, (0, 0))).1) (g.eval s sc)) := by
  rcases mx with _ | _
  · -- minimizing node
    have hW : (fwChildren false childV (g.validMoves s c)
        (if false then ⊥ else ⊤, (0, 0))).1 = minRun childV (g.validMoves s c) ⊤ := by
      rw [fwChildren_fst_min]
      rfl
    have hstate : initFoldSt alpha beta false
        = (⟨alpha, min beta ⊤, ⊤, (0, 0), false, []⟩ : FoldSt) := by
      rw [initFoldSt, min_eq_left le_top]
      rfl
    have hbody : (abBody g sc s c false alpha beta childR).evaluation
        = closeEval (abChildren false childR (g.validMoves s c)
            ⟨alpha, min beta ⊤, ⊤, (0, 0), false, []⟩).evaluation (g.eval s sc) := by
      rw [abBody, ← hstate]
    obtain ⟨f1, f2, f3, fmono, fbot, ftop⟩ :=
      abChildren_min_tri childR childV alpha beta hab (g.validMoves s c) ⊤ (0, 0) []
        hT hFr (lt_of_lt_of_le hab le_top) top_ne_bot
    rcases hms : g.validMoves s c with _ | ⟨m0, ms'⟩
    · rw [hms] at hbody
      rw [abChildren] at hbody
      have hveq : closeEval ((fwChildren false childV []
          ((if false then ⊥ else ⊤ : Ext), ((0 : ℤ), (0 : ℤ)))).1) (g.eval s sc)
          = closeEval (⊤ : Ext) (g.eval s sc) := rfl
      have hreq : (abBody g sc s c false alpha beta childR).evaluation
          = closeEval (⊤ : Ext) (g.eval s sc) := hbody
      rw [hveq, hreq]
      exact ⟨fun _ => le_refl _, fun _ => le_refl _, fun _ _ => rfl⟩
    · rw [hms] at hbody hW f1 f2 f3 fmono fbot ftop
      have hm0 : m0 ∈ m0 :: ms' := List.mem_cons_self m0 ms'
      have hFv' : ∀ m ∈ m0 :: ms', ExtFinite (childV m) := by
        rw [← hms]
        exact hFv
      have hnil : (m0 :: ms' : List Move) ≠ [] := List.cons_ne_nil m0 ms'
      have hFfin : ExtFinite (abChildren false childR (m0 :: ms')
          ⟨alpha, min beta ⊤, ⊤, (0, 0), false, []⟩).evaluation := ⟨fbot, ftop hnil⟩
      have hWbot : minRun childV (m0 :: ms') ⊤ ≠ ⊥ :=
        minRun_ne_bot childV _ ⊤ top_ne_bot fun m hm => (hFv' m hm).1
      have hWtop : minRun childV (m0 :: ms') ⊤ ≠ ⊤ := by
        intro hcon
        have h1 := minRun_le_of_mem childV (m0 :: ms') ⊤ m0 hm0
        rw [hcon] at h1
        exact (hFv' m0 hm0).2 (top_le_iff.mp h1)
      rw [hbody, closeEval_of_finite _ _ hFfin, hW,
        closeEval_of_finite _ _ ⟨hWbot, hWtop⟩]
      exact ⟨f1, f2, f3⟩
  · -- maximizing node
    have hW : (fwChildren true childV (g.validMoves s c)
        (if true then ⊥ else ⊤, (0, 0))).1 = maxRun childV (g.validMoves s c) ⊥ := by
      rw [fwChildren_fst_max]
      rfl
    have hstate : initFoldSt alpha beta true
        = (⟨max alpha ⊥, beta, ⊥, (0, 0), false, []⟩ : FoldSt) := by
      rw [initFoldSt, max_eq_left bot_le]
      rfl
    have hbody : (abBody g sc s c true alpha beta childR).evaluation
        = closeEval (abChildren true childR (g.validMoves s c)
            ⟨max alpha ⊥, beta, ⊥, (0, 0), false, []⟩).evaluation (g.eval s sc) := by
      rw [abBody, ← hstate]
    obtain ⟨f1, f2, f3, fmono, ftop, fbot⟩ :=
      abChildren_max_tri childR childV alpha beta hab (g.validMoves s c) ⊥ (0, 0) []
        hT hFr (lt_of_le_of_lt bot_le hab) bot_ne_top
    rcases hms : g.validMoves s c with _ | ⟨m0, ms'⟩
    · rw [hms] at hbody
      rw [abChildren] at hbody
      have hveq : closeEval ((fwChildren true childV []
          ((if true then ⊥ else ⊤ : Ext), ((0 : ℤ), (0 : ℤ)))).1) (g.eval s sc)
          = closeEval (⊥ : Ext) (g.eval s sc) := rfl
      have hreq : (abBody g sc s c true alpha beta childR).evaluation
          = closeEval (⊥ : Ext) (g.eval s sc) := hbody
      rw [hveq, hreq]
      exact ⟨fun _ => le_refl _, fun _ => le_refl _, fun _ _ => rfl⟩
    · rw [hms] at hbody hW f1 f2 f3 fmono ftop fbot
      have hm0 : m0 ∈ m0 :: ms' := List.mem_cons_self m0 ms'
      have hFv' : ∀ m ∈ m0 :: ms', ExtFinite (childV m) := by
        rw [← hms]
        exact hFv
      have hnil : (m0 :: ms' : List Move) ≠ [] := List.cons_ne_nil m0 ms'
      have hFfin : ExtFinite (abChildren true childR (m0 :: ms')
          ⟨max alpha ⊥, beta, ⊥, (0, 0), false, []⟩).evaluation := ⟨fbot hnil, ftop⟩
      have hWtop : maxRun childV (m0 :: ms') ⊥ ≠ ⊤ :=
        maxRun_ne_top childV _ ⊥ bot_ne_top fun m hm => (hFv' m hm).2
      have hWbot : maxRun childV (m0 :: ms') ⊥ ≠ ⊥ := by
        intro hcon
        have h1 := le_maxRun_of_mem childV (m0 :: ms') ⊥ m0 hm0
        rw [hcon] at h1
        exact (hFv' m0 hm0).1 (le_bot_iff.mp h1)
      rw [hbody, closeEval_of_finite _ _ hFfin, hW,
        closeEval_of_finite _ _ ⟨hWbot, hWtop⟩]
      exact ⟨f1, f2, f3⟩

/-- The node fail-soft trichotomy for the full traversal: the pruned search's
closed evaluation is exact inside its window and a sound bound outside it,
at every fuel (= remaining plies to the depth limit). -/
lemma abNode_tri {σ : Type} (g : Game σ) (sc : Color) :
    ∀ (fuel : ℕ) (s : σ) (c : Color) (mx : Bool) (alpha beta : Ext), alpha < beta →
      ((abNode g sc fuel s c mx alpha beta).evaluation ≤ alpha →
          (fwNode g sc fuel s c mx).1 ≤ (abNode g sc fuel s c mx alpha beta).evaluation) ∧
      (beta ≤ (abNode g sc fuel s c mx alpha beta).evaluation →
          (abNode g sc fuel s c mx alpha beta).evaluation ≤ (fwNode g sc fuel s c mx).1) ∧
      (alpha < (abNode g sc fuel s c mx alpha beta).evaluation →
          (abNode g sc fuel s c mx alpha beta).evaluation < beta →
          (abNode g sc fuel s c mx alpha beta).evaluation = (fwNode g sc fuel s c mx).1) := by
  intro fuel
  induction fuel using Nat.strong_induction_on with
  | _ fuel ih =>
    intro s c mx alpha beta hab
    rcases fuel with _ | fuel1
    · exact abBody_node_tri g sc s c mx alpha beta hab (leafReport g sc s c)
        (fun m => finE (g.eval (g.play s m c) sc))
        (fun m _ a b _ => ⟨fun _ => le_refl _, fun _ => le_refl _, fun _ _ => rfl⟩)
        (fun m _ a b => extFinite_finE _)
        (fun m _ => extFinite_finE _)
    rcases fuel1 with _ | f
    · exact abBody_node_tri g sc s c mx alpha beta hab (leafReport g sc s c)
        (fun m => finE (g.eval (g.play s m c) sc))
        (fun m _ a b _ => ⟨fun _ => le_refl _, fun _ => le_refl _, fun _ _ => rfl⟩)
        (fun m _ a b => extFinite_finE _)
        (fun m _ => extFinite_finE _)
    · exact abBody_node_tri g sc s c mx alpha beta hab
        (fun m a b =>
          ((abNode g sc (f + 1) (g.play s m c) c.opposite (!mx) a b).evaluation,
            (abNode g sc (f + 1) (g.play s m c) c.opposite (!mx) a b).trace))
        (fun m => (fwNode g sc (f + 1) (g.play s m c) c.opposite (!mx)).1)
        (fun m _ a b hab' =>
          ih (f + 1) (by omega) (g.play s m c) c.opposite (!mx) a b hab')
        (fun m _ a b => abNode_finite g sc (f + 1) (g.play s m c) c.opposite (!mx) a b)
        (fun m _ => fwNode_finite g sc (f + 1) (g.play s m c) c.opposite (!mx))

/-- At the root — window `(-inf, +inf)`, maximizing — pruning never fires and
the walk tracks the full-width fold exactly: same running best AND same
running best move, child by child. -/
lemma rootFoldEq
    (childR : Move → Ext → Ext → Ext × List (Ext × Ext)) (childV : Move → Ext) :
    ∀ (ms : List Move) (E : Ext) (nm : Move) (tr : List (Ext × Ext)),
      (∀ m ∈ ms, TriAt childR childV m) →
      (∀ m ∈ ms, ∀ a b : Ext, ExtFinite (childR m a b).1) →
      E ≠ ⊤ →
      (abChildren true childR ms ⟨max ⊥ E, ⊤, E, nm, false, tr⟩).evaluation
          = (fwChildren true childV ms (E, nm)).1 ∧
      (abChildren true childR ms ⟨max ⊥ E, ⊤, E, nm, false, tr⟩).next_move
          = (fwChildren true childV ms (E, nm)).2 := by
  intro ms
  induction ms with
  | nil =>
    intro E nm tr _ _ _
    exact ⟨rfl, rfl⟩
  | cons m ms ih =>
    intro E nm tr hT hF hetop
    have hRfin : ExtFinite (childR m (max ⊥ E) ⊤).1 :=
      hF m (List.mem_cons_self m ms) (max ⊥ E) ⊤
    have hbE : max ⊥ E = E := max_eq_right bot_le
    have hwin : max ⊥ E < ⊤ := by
      rw [hbE]
      exact lt_top_of_ne_top hetop
    have htri := hT m (List.mem_cons_self m ms) (max ⊥ E) ⊤ hwin
    set R := (childR m (max ⊥ E) ⊤).1 with hRdef
    set v := childV m with hvdef
    have hnoprune : ¬(⊤ : Ext) ≤ max E R := by
      intro hcon
      have : max E R = ⊤ := top_le_iff.mp hcon
      rcases max_choice E R with hc | hc
      · exact hetop (hc.symm.trans this)
      · exact hRfin.2 (hc.symm.trans this)
    have hfw : fwChildren true childV (m :: ms) (E, nm)
        = fwChildren true childV ms (if v > E then (v, m) else (E, nm)) := rfl
    rw [abChildren_max_step_go childR m ms ⊥ ⊤ E nm tr hnoprune, hfw]
    rcases le_or_lt R E with hRE | hER
    · have hvR : v ≤ R := htri.1 (by rw [hbE]; exact hRE)
      have hupd : (if v > E then (v, m) else (E, nm)) = (E, nm) := by
        rw [if_neg (not_lt.mpr (hvR.trans hRE))]
      have hstate : max E R = E := max_eq_left hRE
      rw [hupd, hstate]
      have hnm : (if E < R then m else nm) = nm := by
        rw [if_neg (not_lt.mpr hRE)]
      rw [hnm]
      exact ih E nm _ (fun m' hm' => hT m' (List.mem_cons_of_mem m hm'))
        (fun m' hm' => hF m' (List.mem_cons_of_mem m hm')) hetop
    · have hveq : R = v := htri.2.2 (by rw [hbE]; exact hER) (lt_top_of_ne_top hRfin.2)
      have hupd : (if v > E then (v, m) else (E, nm)) = (R, m) := by
        rw [if_pos (by rw [← hveq]; exact hER), ← hveq]
      have hstate : max E R = R := max_eq_right hER.le
      rw [hupd, hstate]
      have hnm : (if E < R then m else nm) = m := by
        rw [if_pos hER]
      rw [hnm]
      exact ih R m _ (fun m' hm' => hT m' (List.mem_cons_of_mem m hm'))
        (fun m' hm' => hF m' (List.mem_cons_of_mem m hm')) hRfin.2

/-- The driver's chosen root move always equals the full-width search's. -/
lemma driver_fw_move_eq {σ : Type} (g : Game σ) (sc : Color) (limit : ℕ) (s : σ) :
    (minimaxDriver g sc limit s).next_move = (fwDriver g sc limit s).2
      ∧ (minimaxDriver g sc limit s).evaluation = (fwDriver g sc limit s).1 := by
  have hinit : (⟨max ⊥ ⊥, ⊤, ⊥, ((0 : ℤ), (0 : ℤ)), false, ([] : List (Ext × Ext))⟩ : FoldSt)
      = initFoldSt ⊥ ⊤ true := by
    rw [initFoldSt, max_self]
    rfl
  rcases limit with _ | _ | f
  · have h1 := rootFoldEq (leafReport g sc s sc)
      (fun m => finE (g.eval (g.play s m sc) sc)) (g.validMoves s sc) ⊥ (0, 0) []
      (fun m _ a b _ => ⟨fun _ => le_refl _, fun _ => le_refl _, fun _ _ => rfl⟩)
      (fun m _ a b => extFinite_finE _) bot_ne_top
    rw [hinit] at h1
    exact ⟨h1.2, congrArg (fun x => closeEval x (g.eval s sc)) h1.1⟩
  · have h1 := rootFoldEq (leafReport g sc s sc)
      (fun m => finE (g.eval (g.play s m sc) sc)) (g.validMoves s sc) ⊥ (0, 0) []
      (fun m _ a b _ => ⟨fun _ => le_refl _, fun _ => le_refl _, fun _ _ => rfl⟩)
      (fun m _ a b => extFinite_finE _) bot_ne_top
    rw [hinit] at h1
    exact ⟨h1.2, congrArg (fun x => closeEval x (g.eval s sc)) h1.1⟩
  · have h1 := rootFoldEq
      (fun m a b =>
        ((abNode g sc (f + 1) (g.play s m sc) sc.opposite (!true) a b).evaluation,
          (abNode g sc (f + 1) (g.play s m sc) sc.opposite (!true) a b).trace))
      (fun m => (fwNode g sc (f + 1) (g.play s m sc) sc.opposite (!true)).1)
      (g.validMoves s sc) ⊥ (0, 0) []
      (fun m _ a b hab' =>
        abNode_tri g sc (f + 1) (g.play s m sc) sc.opposite (!true) a b hab')
      (fun m _ a b => abNode_finite g sc (f + 1) (g.play s m sc) sc.opposite (!true) a b)
      bot_ne_top
    rw [hinit] at h1
    exact ⟨h1.2, congrArg (fun x => closeEval x (g.eval s sc)) h1.1⟩

lemma fwChildren_move_mem (mx : Bool) (f : Move → Ext) :
    ∀ (ms : List Move) (w : Ext × Move),
      (fwChildren mx f ms w).2 ∈ ms ∨ (fwChildren mx f ms w).2 = w.2 := by
  intro ms
  induction ms with
  | nil => intro w; exact Or.inr rfl
  | cons m ms ih =>
    intro w
    rw [fwChildren]
    rcases ih (fwUpdate mx w (f m) m) with h | h
    · exact Or.inl (List.mem_cons_of_mem m h)
    · rw [h, fwUpdate]
      rcases mx with _ | _
      · simp only [Bool.false_eq_true, if_false]
        split_ifs
        · exact Or.inl (List.mem_cons_self m ms)
        · exact Or.inr rfl
      · simp only [if_true]
        split_ifs
        · exact Or.inl (List.mem_cons_self m ms)
        · exact Or.inr rfl

lemma fwChildren_root_mem (f : Move → Ext) (hf : ∀ m, f m ≠ ⊥) :
    ∀ (ms : List Move), ms ≠ [] → (fwChildren true f ms ((⊥ : Ext), ((0 : ℤ), (0 : ℤ)))).2 ∈ ms := by
  intro ms hms
  rcases ms with _ | ⟨m0, ms'⟩
  · exact absurd rfl hms
  · have h0 : (⊥ : Ext) < f m0 := bot_lt_of_ne_bot (hf m0)
    have hstep : fwChildren true f (m0 :: ms') ((⊥ : Ext), ((0 : ℤ), (0 : ℤ)))
        = fwChildren true f ms' (f m0, m0) := by
      rw [fwChildren, fwUpdate, if_pos rfl,
        if_pos (show ((⊥ : Ext), ((0 : ℤ), (0 : ℤ))).1 < f m0 from h0)]
    rw [hstep]
    rcases fwChildren_move_mem true f ms' (f m0, m0) with h | h
    · exact List.mem_cons_of_mem m0 h
    · rw [h]
      exact List.mem_cons_self m0 ms'

/-! ## C4 — pruning never changes the chosen root move -/

/-- C4.  For every game interface, position with at least one legal move for
the searching side, and any depth limit, the root move selected by the
alpha-beta driver (`MiniMaxPlayer.minimax`) equals the move selected by the
full-width minimax search of the same tree to the same depth with the same
evaluator and the same tie-break rules. -/
theorem C4_pruned_matches_full_width {σ : Type} (g : Game σ) (sc : Color) (limit : ℕ)
    (s : σ) (_h : g.validMoves s sc ≠ []) :
    (minimaxDriver g sc limit s).next_move = (fwDriver g sc limit s).2 :=
  (driver_fw_move_eq g sc limit s).1

theorem C4_pruned_matches_full_width_witness :
    tinyGame.validMoves 0 Color.white ≠ [] ∧
    (minimaxDriver tinyGame Color.white 2 0).next_move = (fwDriver tinyGame Color.white 2 0).2 :=
  ⟨by decide, C4_pruned_matches_full_width tinyGame Color.white 2 0 (by decide)⟩

/-- C2 amended: with depth limit 0 the depth test fires only on already
materialized children, so the search behaves exactly like depth limit 1 —
when the root has no legal move it is evaluated directly and the sentinel
(0, 0) is returned, and when it has legal moves each root child is
materialized and evaluated and the best child's move (first argmax in
enumeration order) is returned instead of the sentinel. -/
theorem C2_amended {σ : Type} (g : Game σ) (sc : Color) (s : σ) :
    minimaxDriver g sc 0 s = minimaxDriver g sc 1 s ∧
    (g.validMoves s sc = [] →
      minimaxDriver g sc 0 s = ⟨finE (g.eval s sc), (0, 0), []⟩) ∧
    (g.validMoves s sc ≠ [] →
      (minimaxDriver g sc 0 s).next_move
        = (fwChildren true (fun m => finE (g.eval (g.play s m sc) sc)) (g.validMoves s sc)
            ((⊥ : Ext), ((0 : ℤ), (0 : ℤ)))).2) := by
  refine ⟨rfl, ?_, ?_⟩
  · intro h
    show abBody g sc s sc true ⊥ ⊤ (leafReport g sc s sc) = _
    rw [abBody, h, abChildren]
    rfl
  · intro _
    exact (driver_fw_move_eq g sc 0 s).1

theorem C2_amended_witness :
    (tinyGame.validMoves 1 Color.white = [] ∧
      minimaxDriver tinyGame Color.white 0 1
        = ⟨finE (tinyGame.eval 1 Color.white), (0, 0), []⟩) ∧
    (tinyGame.validMoves 0 Color.white ≠ [] ∧
      (minimaxDriver tinyGame Color.white 0 0).next_move
        = (fwChildren true
            (fun m => finE (tinyGame.eval (tinyGame.play 0 m Color.white) Color.white))
            (tinyGame.validMoves 0 Color.white) ((⊥ : Ext), ((0 : ℤ), (0 : ℤ)))).2) :=
  ⟨⟨by decide, (C2_amended tinyGame Color.white 1).2.1 (by decide)⟩,
   ⟨by decide, (C2_amended tinyGame Color.white 0).2.2 (by decide)⟩⟩

/-! ## C10 — the returned move is legal (or the sentinel) -/

/-- C10.  For depth limit at least 1 (`MiniMaxPlayer.play` uses 5): when the
searching side has a legal move, the move returned by the search — hence by
`play`, which returns the root's `next_move` — is one of the side's legal
moves; when it has none, the sentinel (0, 0) is returned. -/
theorem C10_play_returns_legal_move {σ : Type} (g : Game σ) (sc : Color) (limit : ℕ)
    (s : σ) (hl : 1 ≤ limit) :
    (g.validMoves s sc ≠ [] →
      (minimaxDriver g sc limit s).next_move ∈ g.validMoves s sc) ∧
    (g.validMoves s sc = [] → (minimaxDriver g sc limit s).next_move = (0, 0)) := by
  have hmv := (driver_fw_move_eq g sc limit s).1
  constructor
  · intro hne
    rw [hmv]
    rcases limit with _ | _ | f
    · show (fwChildren true (fun m => finE (g.eval (g.play s m sc) sc)) (g.validMoves s sc)
          ((⊥ : Ext), ((0 : ℤ), (0 : ℤ)))).2 ∈ g.validMoves s sc
      exact fwChildren_root_mem _ (fun m => finE_ne_bot _) _ hne
    · show (fwChildren true (fun m => finE (g.eval (g.play s m sc) sc)) (g.validMoves s sc)
          ((⊥ : Ext), ((0 : ℤ), (0 : ℤ)))).2 ∈ g.validMoves s sc
      exact fwChildren_root_mem _ (fun m => finE_ne_bot _) _ hne
    · show (fwChildren true
          (fun m => (fwNode g sc (f + 1) (g.play s m sc) sc.opposite (!true)).1)
          (g.validMoves s sc) ((⊥ : Ext), ((0 : ℤ), (0 : ℤ)))).2 ∈ g.validMoves s sc
      exact fwChildren_root_mem _
        (fun m => (fwNode_finite g sc (f + 1) (g.play s m sc) sc.opposite (!true)).1) _ hne
  · intro he
    rw [hmv]
    rcases limit with _ | _ | f
    · show (fwChildren true (fun m => finE (g.eval (g.play s m sc) sc)) (g.validMoves s sc)
          ((⊥ : Ext), ((0 : ℤ), (0 : ℤ)))).2 = (0, 0)
      rw [he]
      rfl
    · show (fwChildren true (fun m => finE (g.eval (g.play s m sc) sc)) (g.validMoves s sc)
          ((⊥ : Ext), ((0 : ℤ), (0 : ℤ)))).2 = (0, 0)
      rw [he]
      rfl
    · show (fwChildren true
          (fun m => (fwNode g sc (f + 1) (g.play s m sc) sc.opposite (!true)).1)
          (g.validMoves s sc) ((⊥ : Ext), ((0 : ℤ), (0 : ℤ)))).2 = (0, 0)
      rw [he]
      rfl

theorem C10_play_returns_legal_move_witness :
    (1 ≤ 5 ∧ (minimaxDriver tinyGame Color.white 5 0).next_move
        ∈ tinyGame.validMoves 0 Color.white) ∧
    (1 ≤ 5 ∧ (minimaxDriver tinyGame Color.white 5 1).next_move = (0, 0)) :=
  ⟨⟨by decide, (C10_play_returns_legal_move tinyGame Color.white 5 0 (by decide)).1
      (by decide)⟩,
   ⟨by decide, (C10_play_returns_legal_move tinyGame Color.white 5 1 (by decide)).2
      (by decide)⟩⟩

/-! ## C6 — `alpha ≤ beta` at every child request; cutoffs stop expansion -/

lemma backtrackUpdate_window (mx : Bool) (st : FoldSt) (r : Ext) (m : Move)
    (h : st.alpha ≤ st.beta) (hp : (backtrackUpdate mx st r m).pruned = false) :
    (backtrackUpdate mx st r m).alpha ≤ (backtrackUpdate mx st r m).beta := by
  rcases mx with _ | _
  · rcases le_or_lt (min st.evaluation r) st.alpha with hc | hc
    · rw [bu_min_prune st r m hc] at hp
      exact Bool.noConfusion hp
    · rw [bu_min_go st r m (not_le.mpr hc)]
      exact le_min (le_min h (hc.le.trans (min_le_right _ _))) hc.le
  · rcases le_or_lt st.beta (max st.evaluation r) with hc | hc
    · rw [bu_max_prune st r m hc] at hp
      exact Bool.noConfusion hp
    · rw [bu_max_go st r m (not_le.mpr hc)]
      exact max_le h hc.le

/-- Along the children walk, every logged request window is ordered, given
ordered subtree logs and an ordered current window. -/
lemma abChildren_trace_inv (mx : Bool) (childR : Move → Ext → Ext → Ext × List (Ext × Ext))
    (hsub : ∀ (m : Move) (a b : Ext), a ≤ b → ∀ e ∈ (childR m a b).2, e.1 ≤ e.2) :
    ∀ (ms : List Move) (st : FoldSt), st.alpha ≤ st.beta →
      (∀ e ∈ st.trace, e.1 ≤ e.2) →
      ∀ e ∈ (abChildren mx childR ms st).trace, e.1 ≤ e.2 := by
  intro ms
  induction ms with
  | nil =>
    intro st _ htr e he
    exact htr e he
  | cons m ms ih =>
    intro st hw htr
    rcases hp : st.pruned with _ | _
    · have hstep : abChildren mx childR (m :: ms) st
          = abChildren mx childR ms
            { backtrackUpdate mx st (childR m st.alpha st.beta).1 m with
              trace := st.trace ++ (st.alpha, st.beta) :: (childR m st.alpha st.beta).2 } := by
        rw [abChildren, if_neg (by rw [hp]; exact Bool.false_ne_true)]
      rw [hstep]
      have htr' : ∀ e ∈ st.trace ++ (st.alpha, st.beta) :: (childR m st.alpha st.beta).2,
          e.1 ≤ e.2 := by
        intro e he
        rcases List.mem_append.mp he with h1 | h1
        · exact htr e h1
        · rcases List.mem_cons.mp h1 with h2 | h2
          · rw [h2]
            exact hw
          · exact hsub m st.alpha st.beta hw e h2
      rcases hp2 : (backtrackUpdate mx st (childR m st.alpha st.beta).1 m).pruned with _ | _
      · exact ih _ (backtrackUpdate_window mx st (childR m st.alpha st.beta).1 m hw hp2) htr'
      · have hp2' : ({ backtrackUpdate mx st (childR m st.alpha st.beta).1 m with
            trace := st.trace ++ (st.alpha, st.beta) :: (childR m st.alpha st.beta).2 }
            : FoldSt).pruned = true := hp2
        rw [abChildren_of_pruned mx childR ms _ hp2']
        exact htr'
    · rw [abChildren_of_pruned mx childR (m :: ms) st hp]
      exact htr

/-- Every `(alpha, beta)` pair logged at a child request anywhere in the
traversal is ordered, provided the root window is. -/
lemma abNode_trace {σ : Type} (g : Game σ) (sc : Color) :
    ∀ (fuel : ℕ) (s : σ) (c : Color) (mx : Bool) (a b : Ext), a ≤ b →
      ∀ e ∈ (abNode g sc fuel s c mx a b).trace, e.1 ≤ e.2 := by
  intro fuel
  induction fuel using Nat.strong_induction_on with
  | _ fuel ih =>
    intro s c mx a b hab
    rcases fuel with _ | fuel1
    · exact abChildren_trace_inv mx (leafReport g sc s c)
        (fun m a' b' _ e he => absurd he (List.not_mem_nil e))
        (g.validMoves s c) (initFoldSt a b mx) hab
        (fun e he => absurd he (List.not_mem_nil e))
    rcases fuel1 with _ | f
    · exact abChildren_trace_inv mx (leafReport g sc s c)
        (fun m a' b' _ e he => absurd he (List.not_mem_nil e))
        (g.validMoves s c) (initFoldSt a b mx) hab
        (fun e he => absurd he (List.not_mem_nil e))
    · exact abChildren_trace_inv mx
        (fun m a' b' =>
          ((abNode g sc (f + 1) (g.play s m c) c.opposite (!mx) a' b').evaluation,
            (abNode g sc (f + 1) (g.play s m c) c.opposite (!mx) a' b').trace))
        (fun m a' b' hab' => ih (f + 1) (by omega) (g.play s m c) c.opposite (!mx) a' b' hab')
        (g.validMoves s c) (initFoldSt a b mx) hab
        (fun e he => absurd he (List.not_mem_nil e))

/-- C6.  For any root window with `alpha ≤ beta`, at the moment any node of
the traversal requests its next child the node's current `alpha` is at most
its current `beta` (every logged request window is ordered); and once a
backtrack update triggers the cutoff (`pruned`), the remaining children are
abandoned: the walk changes nothing and requests no further child. -/
theorem C6_window_invariant {σ : Type} (g : Game σ) (sc : Color) (fuel : ℕ) (s : σ)
    (c : Color) (mx : Bool) (alpha beta : Ext) (h : alpha ≤ beta) :
    (∀ e ∈ (abNode g sc fuel s c mx alpha beta).trace, e.1 ≤ e.2) ∧
    (∀ (mx' : Bool) (childR : Move → Ext → Ext → Ext × List (Ext × Ext))
        (ms : List Move) (st : FoldSt), st.pruned = true →
        abChildren mx' childR ms st = st) :=
  ⟨abNode_trace g sc fuel s c mx alpha beta h,
   fun mx' childR ms st hp => abChildren_of_pruned mx' childR ms st hp⟩

theorem C6_window_invariant_witness :
    ((⊥ : Ext) ≤ ⊤) ∧
    (∀ e ∈ (abNode tinyGame Color.white 3 0 Color.white true ⊥ ⊤).trace, e.1 ≤ e.2) :=
  ⟨bot_le,
   (C6_window_invariant tinyGame Color.white 3 0 Color.white true ⊥ ⊤ bot_le).1⟩

end OthelloMM
